import Mathlib

/-!
Shallow embedding of the FileManager search-and-indexing core
(`src/utils/search_engine.py`): the `SearchIndex` inverted filename index
and the `SearchEngine` orchestration (`search_files`, the indexed and
filesystem strategies, `quick_search`, the bounded search history).

Modelling conventions:
* A filesystem path is a list of components (`FMPath`); `os.path.join`
  appends a component, `os.path.basename` takes the last component,
  `os.path.dirname` drops it.
* A directory tree is a value of `FSTree`/`FSEntries`; `os.walk` over it
  is `walkList` (with the hidden-directory pruning of lines 217-222).
* `os.path.getmtime` and `os.stat` are modelled as function parameters
  `mt : FMPath → Option Nat` and `statF : FMPath → Option StatInfo`
  (with `none` standing for an `OSError`), timestamps as naturals.
* `re.search` is modelled as an abstract parameter
  `reSearch : String → String → Bool` (the source catches `re.error`
  and degrades it to a non-match, so every regex behaviour is some
  boolean function of pattern and subject).
* The `threading.Event` cancellation flag is modelled as a function
  `flag : Nat → Bool` of the number of `is_set()` calls made so far;
  every `is_set()` call consumes one tick.  The loops below thread the
  tick counter exactly where the source polls the event.
* Python truthiness of optional arguments (`if content_search:`,
  `if size_min:` ...) is modelled explicitly (`strOptTruthy`,
  `natOptTruthy`).
* `progress_callback` is modelled as absent (`None`), which is its
  default; it is observational only and, when absent, the source also
  skips `_estimate_file_count`.
* Strings are handled through the character-list view (`String.data`);
  the helpers below reimplement the Python `str` operations used by the
  source (`lower`, `strip`, `endswith`, slicing, substring test).
-/

/-- Paths as lists of components: `os.path.join(root, name)` is
`root ++ [name]`. -/
abbrev FMPath := List String

/-- Python `str.lower()` (character-wise lowering). -/
def strLower (s : String) : String := ⟨s.data.map Char.toLower⟩

/-- Python `str.startswith('.')`. -/
def strStartsDot (s : String) : Bool :=
  match s.data with
  | '.' :: _ => true
  | _ => false

/-- Characters stripped by Python `str.strip()` with no argument. -/
def wsChar (c : Char) : Bool :=
  c == ' ' || c == '\t' || c == '\n' || c == '\r' || c == '\x0b' || c == '\x0c'

/-- Python `str.strip()`. -/
def strTrim (s : String) : String :=
  ⟨((s.data.dropWhile wsChar).reverse.dropWhile wsChar).reverse⟩

/-- Python slicing `s[:n]` (by code point). -/
def strTake (s : String) (n : Nat) : String := ⟨s.data.take n⟩

/-- Python `hay.endswith(suf)`. -/
def strEndsWith (hay suf : String) : Bool := List.isSuffixOf suf.data hay.data

/-- Containment of `n` as a contiguous infix of the second list. -/
def listContains (n : List Char) : List Char → Bool
  | [] => n.isEmpty
  | c :: rest => List.isPrefixOf n (c :: rest) || listContains n rest

/-- Python substring test `needle in hay`. -/
def strContains (hay needle : String) : Bool := listContains needle.data hay.data

/-- Membership in the class `\w` of Python `re` (ASCII view): letters,
digits and underscore. -/
def isWordChar (c : Char) : Bool := c.isAlphanum || c == '_'

/-- Accumulating scanner splitting a character stream into maximal runs
of word characters. -/
def tokenizeAux : List Char → List Char → List String
  | [], cur => if cur.isEmpty then [] else [String.mk cur.reverse]
  | c :: cs, cur =>
      if isWordChar c then tokenizeAux cs (c :: cur)
      else if cur.isEmpty then tokenizeAux cs []
      else String.mk cur.reverse :: tokenizeAux cs []

/-- Python `re.findall` of word-character runs applied to a string, as
used by `SearchIndex.add_file` and `SearchIndex.search`. -/
def wordTokens (s : String) : List String := tokenizeAux s.data []

/-- Tokens of a translated shell glob pattern (`fnmatch.translate`):
literal character, `?`, `*`, and a (possibly negated) character class. -/
inductive GlobTok where
  | lit : Char → GlobTok
  | anyChar : GlobTok
  | star : GlobTok
  | cls : Bool → List Char → GlobTok
deriving DecidableEq

/-- Scan for the closing `]` of a glob character class, returning the
class body and the remaining pattern. -/
def findClose : List Char → Option (List Char × List Char)
  | [] => none
  | ']' :: rest => some ([], rest)
  | c :: rest =>
      match findClose rest with
      | some (body, r) => some (c :: body, r)
      | none => none

/-- Parse a glob pattern into tokens following `fnmatch.translate`:
`[!...]` negates, a `]` directly after `[` or `[!` is literal, an
unterminated `[` is a literal character.  The fuel argument (always
instantiated with the pattern length, an upper bound on the steps
needed) makes the recursion structural. -/
def parseGlob : Nat → List Char → List GlobTok
  | 0, _ => []
  | _ + 1, [] => []
  | fuel + 1, '*' :: ps => .star :: parseGlob fuel ps
  | fuel + 1, '?' :: ps => .anyChar :: parseGlob fuel ps
  | fuel + 1, '[' :: ps =>
      let negBody : Bool × List Char :=
        match ps with
        | '!' :: r => (true, r)
        | _ => (false, ps)
      let parsed : Option (List Char × List Char) :=
        match negBody.2 with
        | ']' :: r2 =>
            match findClose r2 with
            | some (body, rest) => some (']' :: body, rest)
            | none => none
        | _ => findClose negBody.2
      match parsed with
      | some (body, rest) => .cls negBody.1 body :: parseGlob fuel rest
      | none => .lit '[' :: parseGlob fuel ps
  | fuel + 1, c :: ps => .lit c :: parseGlob fuel ps

/-- Membership of a character in a glob class body, with `a-b` ranges
(a trailing `-` is literal, as in the translated regex). -/
def inClass : List Char → Char → Bool
  | [], _ => false
  | a :: '-' :: b :: rest, c => (decide (a ≤ c) && decide (c ≤ b)) || inClass rest c
  | a :: rest, c => (a == c) || inClass rest c

/-- All suffixes of a character list (used to interpret `*`). -/
def listTails : List Char → List (List Char)
  | [] => [[]]
  | c :: cs => (c :: cs) :: listTails cs

/-- Matching of a tokenized glob pattern against a whole name
(`fnmatch` anchors the translated regex at both ends). -/
def gmatch : List GlobTok → List Char → Bool
  | [], n => n.isEmpty
  | .star :: ts, n => (listTails n).any fun s => gmatch ts s
  | .anyChar :: ts, n =>
      match n with
      | [] => false
      | _ :: ns => gmatch ts ns
  | .cls neg body :: ts, n =>
      match n with
      | [] => false
      | c :: ns => (inClass body c != neg) && gmatch ts ns
  | .lit p :: ts, n =>
      match n with
      | [] => false
      | c :: ns => (p == c) && gmatch ts ns

/-- Python `fnmatch.fnmatch(name, pat)` (POSIX `normcase` is the
identity, so no extra case folding happens here). -/
def fnmatchGlob (name pat : String) : Bool :=
  gmatch (parseGlob pat.data.length pat.data) name.data

/-- `SearchEngine._match_pattern` (lines 386-399): case-adjust both
sides, then either regex search (`re.search`, a compile error degrading
to no-match -- both covered by the abstract `reSearch`) or shell-glob
matching. -/
def matchPattern (reSearch : String → String → Bool) (filename pattern : String)
    (caseSensitive rgx : Bool) : Bool :=
  let fn := if caseSensitive then filename else strLower filename
  let pat := if caseSensitive then pattern else strLower pattern
  if rgx then reSearch pat fn else fnmatchGlob fn pat

/-- Attributes of a regular file in the modelled tree.  `lines` is the
text content split into lines, exactly the line sequence that the
chunked reader of `_search_in_file_optimized` reconstructs (final line
without trailing newline included, empty trailing segment absent).
`isText` is the verdict of the `_is_text_file` heuristic, an attribute
here because it depends on raw bytes outside this model. -/
structure FileInfo where
  name : String
  size : Nat
  mtime : Nat
  lines : List String
  isText : Bool
deriving DecidableEq

mutual
/-- A directory tree: a regular file or a named directory. -/
inductive FSTree where
  | file : FileInfo → FSTree
  | dir : String → FSEntries → FSTree

/-- Entries of a directory, in directory-listing order. -/
inductive FSEntries where
  | nil : FSEntries
  | cons : FSTree → FSEntries → FSEntries
end

/-- Build `FSEntries` from a list of trees. -/
def toEntries : List FSTree → FSEntries
  | [] => .nil
  | e :: rest => .cons e (toEntries rest)

/-- The `SearchResult` dataclass (lines 17-27). -/
structure SearchResult where
  path : FMPath
  name : String
  size : Nat
  modified : Nat
  directory : FMPath
  matchType : String
  matchLine : Option String
  matchLineNumber : Option Nat
deriving DecidableEq

/-- The keyword criteria of `search_files` other than `max_results` and
`use_index` (which the source consumes separately). -/
structure Criteria where
  pattern : String
  contentSearch : Option String
  fileType : Option String
  sizeMin : Option Nat
  sizeMax : Option Nat
  dateFrom : Option Nat
  dateTo : Option Nat
  caseSensitive : Bool
  rgx : Bool
deriving DecidableEq

/-- The defaults of `search_files` for every criterion except the name
pattern. -/
def defaultCriteria (pat : String) : Criteria :=
  { pattern := pat, contentSearch := none, fileType := none, sizeMin := none,
    sizeMax := none, dateFrom := none, dateTo := none,
    caseSensitive := false, rgx := false }

/-- Python truthiness of an optional string (`None` and `""` falsy). -/
def strOptTruthy : Option String → Bool
  | none => false
  | some s => !s.data.isEmpty

/-- Python truthiness of an optional integer (`None` and `0` falsy). -/
def natOptTruthy : Option Nat → Bool
  | none => false
  | some n => n != 0

/-- State of `SearchIndex` (lines 33-39): the word-to-posting-set dict
and the per-file timestamp dict, both as insertion-ordered association
lists with unique keys. -/
structure SearchIndex where
  index : List (String × Finset FMPath)
  fileTimestamps : List (FMPath × Nat)
deriving DecidableEq

/-- Python `os.path.basename` on a component path. -/
def basename (p : FMPath) : String := p.getLastD ""

/-- Lookup in the posting dict. -/
def lookupPost : List (String × Finset FMPath) → String → Option (Finset FMPath)
  | [], _ => none
  | (k, s) :: rest, w => if k = w then some s else lookupPost rest w

/-- One step of `add_file`'s loop body: create the posting set for the
word if absent, then add the path to it. -/
def insertWord : List (String × Finset FMPath) → String → FMPath → List (String × Finset FMPath)
  | [], w, p => [(w, {p})]
  | (k, s) :: rest, w, p =>
      if k = w then (k, insert p s) :: rest else (k, s) :: insertWord rest w p

/-- Lookup in the timestamp dict. -/
def lookupTS : List (FMPath × Nat) → FMPath → Option Nat
  | [], _ => none
  | (q, ts) :: rest, p => if q = p then some ts else lookupTS rest p

/-- Assignment `file_timestamps[path] = m` on the timestamp dict. -/
def setTS : List (FMPath × Nat) → FMPath → Nat → List (FMPath × Nat)
  | [], p, m => [(p, m)]
  | (q, ts) :: rest, p, m => if q = p then (q, m) :: rest else (q, ts) :: setTS rest p m

/-- Core of `SearchIndex.is_indexed` (lines 41-51): a recorded
timestamp must exist and be at least the current on-disk modification
time; a failing `getmtime` (OSError) yields false. -/
def isIndexedTS (mt : FMPath → Option Nat) (ts : List (FMPath × Nat)) (p : FMPath) : Bool :=
  match lookupTS ts p with
  | none => false
  | some recorded =>
      match mt p with
      | none => false
      | some cur => decide (cur ≤ recorded)

/-- `SearchIndex.is_indexed`. -/
def SearchIndex.isIndexed (mt : FMPath → Option Nat) (st : SearchIndex) (p : FMPath) : Bool :=
  isIndexedTS mt st.fileTimestamps p

/-- `SearchIndex.add_file` (lines 53-67): tokenize the lowercased base
name, insert the path into every token's posting set, then record the
current modification time.  The `getmtime` call happens last, so when
it fails (modelled by `mt p = none`) the words are inserted but no
timestamp is recorded, matching the `try`/`except` of the source. -/
def SearchIndex.addFile (mt : FMPath → Option Nat) (st : SearchIndex) (p : FMPath) : SearchIndex :=
  let words := wordTokens (strLower (basename p))
  let idx := words.foldl (fun acc w => insertWord acc w p) st.index
  match mt p with
  | some m => { index := idx, fileTimestamps := setTS st.fileTimestamps p m }
  | none => { index := idx, fileTimestamps := st.fileTimestamps }

/-- Union of the posting sets of every indexed word containing `w` as a
substring (the inner loop of `SearchIndex.search`). -/
def wordMatches (idx : List (String × Finset FMPath)) (w : String) : Finset FMPath :=
  idx.foldl (fun acc kv => if strContains kv.1 w then acc ∪ kv.2 else acc) ∅

/-- `SearchIndex.search` (lines 69-87): tokenize the lowercased query;
empty token list means empty result; otherwise intersect the per-token
substring match sets. -/
def SearchIndex.search (st : SearchIndex) (q : String) : Finset FMPath :=
  match wordTokens (strLower q) with
  | [] => ∅
  | w :: ws => ws.foldl (fun acc v => acc ∩ wordMatches st.index v) (wordMatches st.index w)

/-- One entry of the bounded search history (lines 138-144). -/
structure HistoryEntry where
  pattern : String
  contentSearch : Option String
  timestamp : Nat
  rootPath : FMPath
  fileType : Option String
deriving DecidableEq

/-- The `SearchError` raises of `search_files`/`quick_search`.  The
source has no cancellation-specific raise: cancellation only breaks
loops or returns early. -/
inductive SearchErr where
  | rootNotExist : SearchErr
  | rootNotDir : SearchErr
  | failed : SearchErr
deriving DecidableEq

/-- Engine state relevant to the modelled operations (`__init__`,
lines 92-103).  `chunk_size` does not appear because content is
modelled at line granularity (the chunked reader reconstructs exactly
the line sequence), and `max_workers` is never used by the search
algorithms. -/
structure SearchEngine where
  searchHistory : List HistoryEntry
  maxHistory : Nat
  index : SearchIndex
  indexingEnabled : Bool
  maxFileSizeForContentSearch : Nat
deriving DecidableEq

/-- A fresh engine as built by `__init__`. -/
def initEngine : SearchEngine :=
  { searchHistory := [], maxHistory := 50,
    index := { index := [], fileTimestamps := [] },
    indexingEnabled := true, maxFileSizeForContentSearch := 10 * 1024 * 1024 }

/-- The `root_path` argument together with what the OS reports about
it: whether it exists, whether it is a directory, and its subtree. -/
structure RootArg where
  path : FMPath
  pathExists : Bool
  isDir : Bool
  entries : FSEntries

/-- The regular files among directory entries, in listing order (the
`files` component of an `os.walk` triple). -/
def entriesFiles : FSEntries → List FileInfo
  | .nil => []
  | .cons (.file f) rest => f :: entriesFiles rest
  | .cons (.dir _ _) rest => entriesFiles rest

/-- Top-down `os.walk` from a directory with path `dp` and the given
entries, yielding `(directory path, its files)` per visited directory,
with subdirectories whose name starts with `.` pruned from descent
(`dirs[:] = [d for d in dirs if not d.startswith('.')]`).  The pruning
applies to subdirectories only, never to the walk root itself. -/
def walkList (dp : FMPath) : FSEntries → List (FMPath × List FileInfo)
  | .nil => []
  | .cons (.file _) rest => walkList dp rest
  | .cons (.dir n es) rest =>
      (if strStartsDot n then [] else
        (dp ++ [n], entriesFiles es) :: walkList (dp ++ [n]) es) ++ walkList dp rest
termination_by structural es => es

/-- The full walk of the search root: the root directory itself,
followed by the pruned recursive walk. -/
def rootWalk (r : RootArg) : List (FMPath × List FileInfo) :=
  (r.path, entriesFiles r.entries) :: walkList r.path r.entries

/-- Flatten a walk into the visited files, each with its joined path,
in visiting order. -/
def flatFiles (dirs : List (FMPath × List FileInfo)) : List (FMPath × FileInfo) :=
  dirs.foldr (fun d acc => d.2.map (fun f => (d.1 ++ [f.name], f)) ++ acc) []

/-- Line scan of `_search_in_file_optimized`: first line whose
case-adjusted text contains the (already case-adjusted) search text,
returned stripped and truncated to 200 characters together with its
1-based number. -/
def findLine (t : String) (caseSensitive : Bool) : List String → Nat → Option (String × Nat)
  | [], _ => none
  | l :: ls, k =>
      if strContains (if caseSensitive then l else strLower l) t then
        some (strTake (strTrim l) 200, k)
      else findLine t caseSensitive ls (k + 1)

/-- `SearchEngine._search_in_file_optimized` (lines 314-355): non-text
files (per the `_is_text_file` heuristic) yield no content match; the
search text is lowercased first when case-insensitive. -/
def searchInFile (f : FileInfo) (text : String) (caseSensitive : Bool) :
    Option (String × Nat) :=
  if !f.isText then none
  else findLine (if caseSensitive then text else strLower text) caseSensitive f.lines 1

/-- The `file_type` rejection of `_process_file`/`_matches_criteria`:
`if file_type and not filename.lower().endswith(file_type.lower())`. -/
def fileTypeReject (c : Criteria) (filename : String) : Bool :=
  match c.fileType with
  | none => false
  | some t => !strEndsWith (strLower filename) (strLower t)

/-- The `size_min` rejection: `if size_min and stat.st_size < size_min`
(a zero bound is falsy and never rejects). -/
def sizeMinReject (c : Criteria) (sz : Nat) : Bool :=
  match c.sizeMin with
  | none => false
  | some m => (m != 0) && decide (sz < m)

/-- The `size_max` rejection: `if size_max and stat.st_size > size_max`. -/
def sizeMaxReject (c : Criteria) (sz : Nat) : Bool :=
  match c.sizeMax with
  | none => false
  | some m => (m != 0) && decide (m < sz)

/-- The `date_from` rejection: `if date_from and file_date < date_from`. -/
def dateFromReject (c : Criteria) (mtime : Nat) : Bool :=
  match c.dateFrom with
  | none => false
  | some d => decide (mtime < d)

/-- The `date_to` rejection: `if date_to and file_date > date_to`. -/
def dateToReject (c : Criteria) (mtime : Nat) : Bool :=
  match c.dateTo with
  | none => false
  | some d => decide (d < mtime)

/-- `SearchEngine._process_file` (lines 253-312), returning the
`SearchResult` appended on acceptance.  Criteria are evaluated in
source order: name pattern, extension, size bounds, date bounds, then
content.  A file larger than `max_file_size_for_content_search` skips
the content scan and stands as a filename match; a content miss keeps
the file only when the filename itself matches the content term as a
pattern. -/
def processFile (reSearch : String → String → Bool) (c : Criteria) (maxContentSize : Nat)
    (path : FMPath) (f : FileInfo) : Option SearchResult :=
  if !matchPattern reSearch f.name c.pattern c.caseSensitive c.rgx then none
  else if fileTypeReject c f.name then none
  else if sizeMinReject c f.size then none
  else if sizeMaxReject c f.size then none
  else if dateFromReject c f.mtime then none
  else if dateToReject c f.mtime then none
  else
    let base : SearchResult :=
      { path := path, name := f.name, size := f.size, modified := f.mtime,
        directory := path.dropLast, matchType := "filename",
        matchLine := none, matchLineNumber := none }
    if strOptTruthy c.contentSearch then
      let cs := c.contentSearch.getD ""
      if maxContentSize < f.size then some base
      else
        match searchInFile f cs c.caseSensitive with
        | some (line, k) =>
            some { base with
                   matchType := "content"
                   matchLine := some line
                   matchLineNumber := some k }
        | none =>
            if matchPattern reSearch f.name cs c.caseSensitive c.rgx then some base else none
    else some base

/-- Inner file loop of `_search_filesystem` (lines 224-245): per file,
one cancellation poll (`is_set() or len(results) >= max_results`), then
`_process_file`; accepted results are appended.  The opportunistic
`index.add_file` on acceptance does not influence this search's output
and is not threaded here. -/
def fsInner (reSearch : String → String → Bool) (flag : Nat → Bool) (c : Criteria)
    (maxContentSize maxResults : Nat) (dp : FMPath) :
    List FileInfo → List SearchResult → Nat → List SearchResult × Nat
  | [], acc, t => (acc, t)
  | f :: rest, acc, t =>
      if flag t || decide (maxResults ≤ acc.length) then (acc, t + 1)
      else
        match processFile reSearch c maxContentSize (dp ++ [f.name]) f with
        | some r => fsInner reSearch flag c maxContentSize maxResults dp rest (acc ++ [r]) (t + 1)
        | none => fsInner reSearch flag c maxContentSize maxResults dp rest acc (t + 1)

/-- Outer directory loop of `_search_filesystem` (lines 217-245): per
directory, one cancellation poll, then the file loop. -/
def fsOuter (reSearch : String → String → Bool) (flag : Nat → Bool) (c : Criteria)
    (maxContentSize maxResults : Nat) :
    List (FMPath × List FileInfo) → List SearchResult → Nat → List SearchResult × Nat
  | [], acc, t => (acc, t)
  | d :: rest, acc, t =>
      if flag t then (acc, t + 1)
      else
        let stp := fsInner reSearch flag c maxContentSize maxResults d.1 d.2 acc (t + 1)
        fsOuter reSearch flag c maxContentSize maxResults rest stp.1 stp.2

/-- `SearchEngine._search_filesystem` (lines 207-251).  In this pure
model the per-item `OSError` skips and the catastrophic-walk wrap
cannot fire, so the walk always completes or stops at a poll. -/
def searchFilesystem (reSearch : String → String → Bool) (flag : Nat → Bool) (c : Criteria)
    (maxContentSize maxResults : Nat) (r : RootArg) (t : Nat) : List SearchResult × Nat :=
  fsOuter reSearch flag c maxContentSize maxResults (rootWalk r) [] t

/-- First phase of `_update_index` (lines 444-456): walk the subtree
(one cancellation poll per directory; a set flag makes the whole
update return early, reported by the final boolean) collecting files
whose `is_indexed` check fails. -/
def collectPhase (flag : Nat → Bool) (mt : FMPath → Option Nat) (ts : List (FMPath × Nat)) :
    List (FMPath × List FileInfo) → Nat → List FMPath × Nat × Bool
  | [], t => ([], t, false)
  | d :: rest, t =>
      if flag t then ([], t + 1, true)
      else
        let here := d.2.filterMap fun f =>
          let p := d.1 ++ [f.name]
          if isIndexedTS mt ts p then none else some p
        let next := collectPhase flag mt ts rest (t + 1)
        (here ++ next.1, next.2.1, next.2.2)

/-- Second phase of `_update_index` (lines 459-466): index the
collected files, one cancellation poll per file, returning early with
a partial index when the flag is set. -/
def indexPhase (flag : Nat → Bool) (mt : FMPath → Option Nat) :
    SearchIndex → List FMPath → Nat → SearchIndex × Nat
  | st, [], t => (st, t)
  | st, p :: rest, t =>
      if flag t then (st, t + 1)
      else indexPhase flag mt (st.addFile mt p) rest (t + 1)

/-- `SearchEngine._update_index` (lines 435-466). -/
def updateIndex (flag : Nat → Bool) (mt : FMPath → Option Nat) (indexingEnabled : Bool)
    (st : SearchIndex) (walk : List (FMPath × List FileInfo)) (t : Nat) : SearchIndex × Nat :=
  if !indexingEnabled then (st, t)
  else
    let col := collectPhase flag mt st.fileTimestamps walk t
    if col.2.2 then (st, col.2.1)
    else indexPhase flag mt st col.1 col.2.1

/-- Result of `os.stat` for the indexed strategy's re-validation. -/
structure StatInfo where
  size : Nat
  mtime : Nat
deriving DecidableEq

/-- `SearchEngine._matches_criteria` (lines 401-433): full re-check of
pattern, extension, size and date bounds against a candidate path; any
`OSError` (modelled by `statF p = none`) yields false. -/
def matchesCriteria (reSearch : String → String → Bool) (statF : FMPath → Option StatInfo)
    (c : Criteria) (p : FMPath) : Bool :=
  let filename := basename p
  if !matchPattern reSearch filename c.pattern c.caseSensitive c.rgx then false
  else if fileTypeReject c filename then false
  else
    match statF p with
    | none => false
    | some s =>
        if sizeMinReject c s.size then false
        else if sizeMaxReject c s.size then false
        else if dateFromReject c s.mtime then false
        else if dateToReject c s.mtime then false
        else true

/-- The `SearchResult` built by `_search_with_index` for an accepted
candidate (match kind always `filename`). -/
def mkIndexResult (p : FMPath) (s : StatInfo) : SearchResult :=
  { path := p, name := basename p, size := s.size, modified := s.mtime,
    directory := p.dropLast, matchType := "filename",
    matchLine := none, matchLineNumber := none }

/-- Candidate loop of `_search_with_index` (lines 183-203): per
candidate one cancellation poll (`is_set() or len(results) >=
max_results`), re-validation, and a second `stat` whose failure skips
the candidate. -/
def candLoop (reSearch : String → String → Bool) (flag : Nat → Bool)
    (statF : FMPath → Option StatInfo) (c : Criteria) (maxResults : Nat) :
    List FMPath → List SearchResult → Nat → List SearchResult × Nat
  | [], acc, t => (acc, t)
  | p :: rest, acc, t =>
      if flag t || decide (maxResults ≤ acc.length) then (acc, t + 1)
      else if matchesCriteria reSearch statF c p then
        match statF p with
        | some s =>
            candLoop reSearch flag statF c maxResults rest (acc ++ [mkIndexResult p s]) (t + 1)
        | none => candLoop reSearch flag statF c maxResults rest acc (t + 1)
      else candLoop reSearch flag statF c maxResults rest acc (t + 1)

/-- `SearchEngine._search_with_index` (lines 168-205): refresh the
index, poll cancellation once (a set flag returns the empty result
silently), query the index with the raw pattern, then validate the
candidates in set-iteration order (the abstract `setOrder`). -/
def searchWithIndex (reSearch : String → String → Bool) (flag : Nat → Bool)
    (setOrder : Finset FMPath → List FMPath) (statF : FMPath → Option StatInfo)
    (mt : FMPath → Option Nat) (eng : SearchEngine) (r : RootArg) (c : Criteria)
    (maxResults : Nat) (t : Nat) : List SearchResult × Nat :=
  let upd := updateIndex flag mt eng.indexingEnabled eng.index (rootWalk r) t
  if flag upd.2 then ([], upd.2 + 1)
  else
    let idx2 : SearchIndex := upd.1
    let candidates := setOrder (idx2.search c.pattern)
    candLoop reSearch flag statF c maxResults candidates [] (upd.2 + 1)

/-- `SearchEngine._add_to_history` (lines 482-486): append, then evict
the oldest entry when the bound is exceeded. -/
def addToHistory (maxHistory : Nat) (h : List HistoryEntry) (e : HistoryEntry) :
    List HistoryEntry :=
  let h2 := h ++ [e]
  if maxHistory < h2.length then h2.drop 1 else h2

/-- `SearchEngine.search_files` (lines 110-166): root validation
raises first; then (inside the search lock) the cancellation flag is
cleared -- `flag` here models the event after that clearing -- the
query descriptor is appended to the history, and the strategy is
chosen: the index is used exactly when `use_index` and indexing are
enabled and no truthy `content_search` was given.  The result is the
pair (outcome, history after the call). -/
def searchFiles (reSearch : String → String → Bool) (flag : Nat → Bool)
    (setOrder : Finset FMPath → List FMPath) (statF : FMPath → Option StatInfo)
    (mt : FMPath → Option Nat) (eng : SearchEngine) (r : RootArg) (c : Criteria)
    (maxResults : Nat) (useIndex : Bool) (now : Nat) (t : Nat) :
    Except SearchErr (List SearchResult) × List HistoryEntry :=
  if !r.pathExists then (.error .rootNotExist, eng.searchHistory)
  else if !r.isDir then (.error .rootNotDir, eng.searchHistory)
  else
    let hist := addToHistory eng.maxHistory eng.searchHistory
      { pattern := c.pattern, contentSearch := c.contentSearch, timestamp := now,
        rootPath := r.path, fileType := c.fileType }
    if useIndex && eng.indexingEnabled && !strOptTruthy c.contentSearch then
      (.ok (searchWithIndex reSearch flag setOrder statF mt eng r c maxResults t).1, hist)
    else
      (.ok (searchFilesystem reSearch flag c eng.maxFileSizeForContentSearch maxResults r t).1,
       hist)

/-- Names of the subdirectories among directory entries, in listing
order (the `dirs` component of an `os.walk` triple). -/
def entriesDirNames : FSEntries → List String
  | .nil => []
  | .cons (.file _) rest => entriesDirNames rest
  | .cons (.dir n _) rest => n :: entriesDirNames rest

/-- The `dirs + files` item list iterated by `quick_search` for one
visited directory. -/
def dirItems (es : FSEntries) : List String :=
  entriesDirNames es ++ (entriesFiles es).map FileInfo.name

/-- Top-down `os.walk` as used by `quick_search`'s fallback: no
hidden-directory pruning there. -/
def walkAllSub (dp : FMPath) : FSEntries → List (FMPath × List String)
  | .nil => []
  | .cons (.file _) rest => walkAllSub dp rest
  | .cons (.dir n es) rest =>
      ((dp ++ [n], dirItems es) :: walkAllSub (dp ++ [n]) es) ++ walkAllSub dp rest
termination_by structural es => es

/-- The unpruned walk of the quick-search root. -/
def rootWalkAll (r : RootArg) : List (FMPath × List String) :=
  (r.path, dirItems r.entries) :: walkAllSub r.path r.entries

/-- Item loop of `quick_search`'s fallback (lines 519-523): append
the joined path of every item whose lowercased name contains the
lowercased query, stopping once `max_results` is reached (no
cancellation poll inside this inner loop). -/
def qwInner (ql : String) (maxResults : Nat) (dp : FMPath) :
    List String → List FMPath → List FMPath
  | [], acc => acc
  | it :: rest, acc =>
      if strContains (strLower it) ql then
        let acc2 := acc ++ [dp ++ [it]]
        if decide (maxResults ≤ acc2.length) then acc2 else qwInner ql maxResults dp rest acc2
      else qwInner ql maxResults dp rest acc

/-- Directory loop of `quick_search`'s fallback (lines 515-523): one
cancellation poll per directory. -/
def qwOuter (flag : Nat → Bool) (ql : String) (maxResults : Nat) :
    List (FMPath × List String) → List FMPath → Nat → List FMPath × Nat
  | [], acc, t => (acc, t)
  | d :: rest, acc, t =>
      if flag t || decide (maxResults ≤ acc.length) then (acc, t + 1)
      else qwOuter flag ql maxResults rest (qwInner ql maxResults d.1 d.2 acc) (t + 1)

/-- `SearchEngine.quick_search` (lines 500-528): only existence of the
root is validated; with indexing enabled the call returns the index
search of the raw query, in set order, truncated to `max_results`,
with no per-candidate validation, no root filtering and no
cancellation poll; otherwise a substring scan over the unpruned walk
runs. -/
def quickSearch (flag : Nat → Bool) (setOrder : Finset FMPath → List FMPath)
    (eng : SearchEngine) (r : RootArg) (q : String) (maxResults : Nat) :
    Except SearchErr (List FMPath) :=
  if !r.pathExists then .error .rootNotExist
  else if eng.indexingEnabled then .ok ((setOrder (eng.index.search q)).take maxResults)
  else .ok (qwOuter flag (strLower q) maxResults (rootWalkAll r) [] 0).1

deriving instance DecidableEq for Except

/-! ## Concrete fixtures used by witness theorems -/

/-- A regex oracle that never matches (one possible `re.search`
behaviour; also the degradation used for a compile error). -/
def noRe : String → String → Bool := fun _ _ => false

/-- A cancellation flag that is never set. -/
def noFlag : Nat → Bool := fun _ => false

/-- A cancellation flag set from the start. -/
def allFlag : Nat → Bool := fun _ => true

/-- An `os.stat` model under which every stat fails. -/
def noStat : FMPath → Option StatInfo := fun _ => none

/-- An `os.path.getmtime` model under which every call fails. -/
def noMt : FMPath → Option Nat := fun _ => none

/-- Example file `a.txt` containing one line `hello`. -/
def exFileA : FileInfo :=
  { name := "a.txt", size := 5, mtime := 0, lines := ["hello"], isText := true }

/-- Example file `sub.py`. -/
def exFileSub : FileInfo :=
  { name := "sub.py", size := 3, mtime := 0, lines := [], isText := true }

/-- Example file `x.txt` inside a hidden directory. -/
def exFileX : FileInfo :=
  { name := "x.txt", size := 1, mtime := 0, lines := [], isText := true }

/-- Example root `/root` with `a.txt`, `b/sub.py` and `.hidden/x.txt`. -/
def exRoot : RootArg :=
  { path := ["root"], pathExists := true, isDir := true,
    entries := toEntries [.file exFileA, .dir "b" (toEntries [.file exFileSub]),
      .dir ".hidden" (toEntries [.file exFileX])] }

/-! ## Generic facts about the index structures -/

theorem mem_wordMatchesAux (w : String) (p : FMPath) (idx : List (String × Finset FMPath)) :
    ∀ acc : Finset FMPath,
      (p ∈ idx.foldl (fun a kv => if strContains kv.1 w then a ∪ kv.2 else a) acc ↔
        p ∈ acc ∨ ∃ kv ∈ idx, strContains kv.1 w = true ∧ p ∈ kv.2) := by
  induction idx with
  | nil => intro acc; simp
  | cons kv rest ih =>
      intro acc
      simp only [List.foldl_cons]
      rw [ih]
      by_cases h : strContains kv.1 w
      · simp only [h, if_true, Finset.mem_union, List.mem_cons]
        constructor
        · rintro ((hp | hp) | ⟨kv2, h2, h3⟩)
          · exact Or.inl hp
          · exact Or.inr ⟨kv, Or.inl rfl, h, hp⟩
          · exact Or.inr ⟨kv2, Or.inr h2, h3⟩
        · rintro (hp | ⟨kv2, (rfl | h2), h3, h4⟩)
          · exact Or.inl (Or.inl hp)
          · exact Or.inl (Or.inr h4)
          · exact Or.inr ⟨kv2, h2, h3, h4⟩
      · simp only [h, if_false, List.mem_cons]
        constructor
        · rintro (hp | ⟨kv2, h2, h3⟩)
          · exact Or.inl hp
          · exact Or.inr ⟨kv2, Or.inr h2, h3⟩
        · rintro (hp | ⟨kv2, (rfl | h2), h3, h4⟩)
          · exact Or.inl hp
          · exact absurd h3 (by simp [h])
          · exact Or.inr ⟨kv2, h2, h3, h4⟩

theorem mem_wordMatches (idx : List (String × Finset FMPath)) (w : String) (p : FMPath) :
    p ∈ wordMatches idx w ↔ ∃ kv ∈ idx, strContains kv.1 w = true ∧ p ∈ kv.2 := by
  unfold wordMatches
  rw [mem_wordMatchesAux]
  simp

theorem mem_interFoldl (idx : List (String × Finset FMPath)) (p : FMPath) (ws : List String) :
    ∀ acc : Finset FMPath,
      (p ∈ ws.foldl (fun a v => a ∩ wordMatches idx v) acc ↔
        p ∈ acc ∧ ∀ v ∈ ws, p ∈ wordMatches idx v) := by
  induction ws with
  | nil => intro acc; simp
  | cons w rest ih =>
      intro acc
      simp only [List.foldl_cons]
      rw [ih]
      simp only [Finset.mem_inter, List.mem_cons]
      constructor
      · rintro ⟨⟨h1, h2⟩, h3⟩
        exact ⟨h1, fun v hv => by rcases hv with rfl | hv; exact h2; exact h3 v hv⟩
      · rintro ⟨h1, h2⟩
        exact ⟨⟨h1, h2 w (Or.inl rfl)⟩, fun v hv => h2 v (Or.inr hv)⟩

/-- C4: for every index state and query string, `SearchIndex.search`
tokenizes the lowercased query into word-character runs and returns the
intersection, over all query tokens, of the union of the posting sets of
every indexed token containing that query token as a substring; and it
returns the empty set whenever the query yields no word tokens. -/
theorem index_search_characterization (st : SearchIndex) (q : String) :
    (wordTokens (strLower q) = [] → st.search q = ∅) ∧
    ∀ p : FMPath,
      (p ∈ st.search q ↔
        (wordTokens (strLower q) ≠ [] ∧
          ∀ w ∈ wordTokens (strLower q),
            ∃ kv ∈ st.index, strContains kv.1 w = true ∧ p ∈ kv.2)) := by
  constructor
  · intro h
    unfold SearchIndex.search
    rw [h]
  · intro p
    unfold SearchIndex.search
    cases htok : wordTokens (strLower q) with
    | nil => simp [htok]
    | cons w ws =>
        rw [mem_interFoldl]
        simp only [htok, List.mem_cons, ne_eq, reduceCtorEq, not_false_iff, true_and]
        constructor
        · rintro ⟨h1, h2⟩
          intro v hv
          rcases hv with rfl | hv
          · exact (mem_wordMatches _ _ _).1 h1
          · exact (mem_wordMatches _ _ _).1 (h2 v hv)
        · intro h
          refine ⟨(mem_wordMatches _ _ _).2 (h w (Or.inl rfl)), fun v hv => ?_⟩
          exact (mem_wordMatches _ _ _).2 (h v (Or.inr hv))

/-- Witness for C4 at a concrete input: a query with no word tokens
yields the empty set on a concrete index. -/
theorem index_search_characterization_witness :
    SearchIndex.search { index := [("abc", {(["x"] : FMPath)})], fileTimestamps := [] } "!!" = ∅ :=
  (index_search_characterization _ "!!").1 (by decide)

theorem lookupTS_setTS_self (ts : List (FMPath × Nat)) (p : FMPath) (m : Nat) :
    lookupTS (setTS ts p m) p = some m := by
  induction ts with
  | nil => simp [setTS, lookupTS]
  | cons kv rest ih =>
      by_cases h : kv.1 = p
      · simp [setTS, lookupTS, h]
      · simp [setTS, lookupTS, h, ih]

/-- C5: for every file successfully added to a `SearchIndex`,
`is_indexed` is true immediately after `add_file` while the on-disk
modification time is unchanged; false once the modification time
advances past the recorded timestamp without re-indexing; and false
(rather than an error) for a path with no recorded timestamp or whose
stat fails. -/
theorem isIndexed_addFile_spec (mt mt2 : FMPath → Option Nat) (st : SearchIndex)
    (p : FMPath) (m m2 : Nat) :
    (mt p = some m → (st.addFile mt p).isIndexed mt p = true) ∧
    (mt p = some m → mt2 p = some m2 → m < m2 → (st.addFile mt p).isIndexed mt2 p = false) ∧
    (lookupTS st.fileTimestamps p = none → st.isIndexed mt p = false) ∧
    (mt p = none → st.isIndexed mt p = false) := by
  refine ⟨?_, ?_, ?_, ?_⟩
  · intro h
    unfold SearchIndex.addFile SearchIndex.isIndexed isIndexedTS
    simp only [h]
    rw [lookupTS_setTS_self]
    simp [h]
  · intro h h2 hlt
    unfold SearchIndex.addFile SearchIndex.isIndexed isIndexedTS
    simp only [h]
    rw [lookupTS_setTS_self]
    simp only [h2]
    simp
    omega
  · intro h
    unfold SearchIndex.isIndexed isIndexedTS
    rw [h]
  · intro h
    unfold SearchIndex.isIndexed isIndexedTS
    cases hls : lookupTS st.fileTimestamps p <;> simp [hls, h]

/-- Witness for C5 at a concrete input: a single file with recorded
modification time 5 is indexed; advancing the time to 7 un-indexes it;
a fresh index reports false without error. -/
theorem isIndexed_addFile_spec_witness :
    ((SearchIndex.addFile (fun q => if q = ["f"] then some 5 else none)
        { index := [], fileTimestamps := [] } ["f"]).isIndexed
        (fun q => if q = ["f"] then some 5 else none) ["f"] = true) ∧
    ((SearchIndex.addFile (fun q => if q = ["f"] then some 5 else none)
        { index := [], fileTimestamps := [] } ["f"]).isIndexed
        (fun q => if q = ["f"] then some 7 else none) ["f"] = false) ∧
    (SearchIndex.isIndexed noMt { index := [], fileTimestamps := [] } ["f"] = false) :=
  ⟨(isIndexed_addFile_spec _ (fun q => if q = ["f"] then some 7 else none)
      { index := [], fileTimestamps := [] } ["f"] 5 7).1 rfl,
   (isIndexed_addFile_spec (fun q => if q = ["f"] then some 5 else none) _
      { index := [], fileTimestamps := [] } ["f"] 5 7).2.1 rfl rfl (by omega),
   (isIndexed_addFile_spec noMt noMt { index := [], fileTimestamps := [] } ["f"] 5 7).2.2.2 rfl⟩

/-- Membership of a path in the posting set of a word. -/
def memPost (idx : List (String × Finset FMPath)) (w : String) (p : FMPath) : Prop :=
  ∃ s, lookupPost idx w = some s ∧ p ∈ s

theorem insertWord_memPost_self (w : String) (p : FMPath) :
    ∀ idx : List (String × Finset FMPath), memPost (insertWord idx w p) w p := by
  intro idx
  induction idx with
  | nil => exact ⟨{p}, by simp [insertWord, lookupPost], by simp⟩
  | cons kv rest ih =>
      by_cases h : kv.1 = w
      · refine ⟨insert p kv.2, ?_, Finset.mem_insert_self p kv.2⟩
        obtain ⟨k, s⟩ := kv
        simp only at h
        simp [insertWord, lookupPost, h]
      · obtain ⟨s, hs, hp⟩ := ih
        refine ⟨s, ?_, hp⟩
        obtain ⟨k, s2⟩ := kv
        simp only at h
        simp [insertWord, lookupPost, h, hs]

theorem lookupPost_insertWord_ne (w v : String) (p : FMPath) (hne : w ≠ v) :
    ∀ idx : List (String × Finset FMPath),
      lookupPost (insertWord idx w p) v = lookupPost idx v := by
  intro idx
  induction idx with
  | nil => simp [insertWord, lookupPost, hne]
  | cons kv rest ih =>
      obtain ⟨k, s2⟩ := kv
      have hvw : ¬ v = w := fun h => hne h.symm
      by_cases hkw : k = w
      · have hkv : ¬ k = v := fun h => hne (hkw ▸ h)
        simp [insertWord, lookupPost, hkw, hkv, hne]
      · by_cases hkv : k = v
        · simp [insertWord, lookupPost, hkw, hkv, hvw]
        · simp [insertWord, lookupPost, hkw, hkv, ih]

theorem lookupPost_insertWord_self (w : String) (p : FMPath) :
    ∀ idx : List (String × Finset FMPath),
      lookupPost (insertWord idx w p) w = some (insert p ((lookupPost idx w).getD ∅)) := by
  intro idx
  induction idx with
  | nil => simp [insertWord, lookupPost]
  | cons kv rest ih =>
      obtain ⟨k, s2⟩ := kv
      by_cases hkw : k = w
      · simp [insertWord, lookupPost, hkw]
      · simp [insertWord, lookupPost, hkw, ih]

theorem insertWord_memPost_mono (w v : String) (p : FMPath) :
    ∀ idx : List (String × Finset FMPath), memPost idx v p → memPost (insertWord idx w p) v p := by
  rintro idx ⟨s, hs, hp⟩
  by_cases hwv : w = v
  · subst hwv
    refine ⟨insert p ((lookupPost idx w).getD ∅), lookupPost_insertWord_self w p idx, ?_⟩
    exact Finset.mem_insert_self p _
  · exact ⟨s, by rw [lookupPost_insertWord_ne w v p hwv, hs], hp⟩

theorem insertWord_eq_self (w : String) (p : FMPath) :
    ∀ idx : List (String × Finset FMPath), memPost idx w p → insertWord idx w p = idx := by
  intro idx
  induction idx with
  | nil => rintro ⟨s, hs, _⟩; simp [lookupPost] at hs
  | cons kv rest ih =>
      rintro ⟨s, hs, hp⟩
      obtain ⟨k, s2⟩ := kv
      by_cases hkw : k = w
      · simp only [lookupPost, hkw, if_true, Option.some.injEq] at hs
        subst hs
        simp [insertWord, hkw, Finset.insert_eq_self.2 hp]
      · simp only [lookupPost, hkw, if_false] at hs
        simp [insertWord, hkw, ih ⟨s, hs, hp⟩]

theorem foldWords_memPost_mono (p : FMPath) (v : String) (words : List String) :
    ∀ idx : List (String × Finset FMPath), memPost idx v p →
      memPost (words.foldl (fun acc w => insertWord acc w p) idx) v p := by
  induction words with
  | nil => intro idx h; exact h
  | cons w rest ih =>
      intro idx h
      exact ih _ (insertWord_memPost_mono w v p idx h)

theorem foldWords_memPost_all (p : FMPath) (words : List String) :
    ∀ idx : List (String × Finset FMPath), ∀ w ∈ words,
      memPost (words.foldl (fun acc w => insertWord acc w p) idx) w p := by
  induction words with
  | nil => intro idx w h; simp at h
  | cons w0 rest ih =>
      intro idx w h
      rcases List.mem_cons.1 h with rfl | h
      · exact foldWords_memPost_mono p w rest _ (insertWord_memPost_self w p idx)
      · exact ih _ w h

theorem foldWords_eq_self (p : FMPath) (words : List String) :
    ∀ idx : List (String × Finset FMPath), (∀ w ∈ words, memPost idx w p) →
      words.foldl (fun acc w => insertWord acc w p) idx = idx := by
  induction words with
  | nil => intro idx _; rfl
  | cons w rest ih =>
      intro idx h
      simp only [List.foldl_cons]
      rw [insertWord_eq_self w p idx (h w (List.mem_cons_self w rest)), ih]
      intro v hv
      exact h v (List.mem_cons_of_mem w hv)

theorem setTS_idem (p : FMPath) (m : Nat) :
    ∀ ts : List (FMPath × Nat), setTS (setTS ts p m) p m = setTS ts p m := by
  intro ts
  induction ts with
  | nil => simp [setTS]
  | cons kv rest ih =>
      by_cases h : kv.1 = p
      · obtain ⟨q, n⟩ := kv
        simp only at h
        simp [setTS, h]
      · obtain ⟨q, n⟩ := kv
        simp only at h
        simp [setTS, h, ih]

/-- C9: calling `add_file` twice in a row on a file whose name and
modification time are unchanged leaves the index state unchanged, so
every query returns the same set of paths as after a single call. -/
theorem addFile_idempotent (mt : FMPath → Option Nat) (st : SearchIndex) (p : FMPath) :
    ((st.addFile mt p).addFile mt p = st.addFile mt p) ∧
    ∀ q : String, ((st.addFile mt p).addFile mt p).search q = (st.addFile mt p).search q := by
  have hidx : ∀ idx : List (String × Finset FMPath),
      (wordTokens (strLower (basename p))).foldl (fun acc w => insertWord acc w p)
        ((wordTokens (strLower (basename p))).foldl (fun acc w => insertWord acc w p) idx) =
      (wordTokens (strLower (basename p))).foldl (fun acc w => insertWord acc w p) idx := by
    intro idx
    exact foldWords_eq_self p _ _ (foldWords_memPost_all p _ idx)
  have hmain : (st.addFile mt p).addFile mt p = st.addFile mt p := by
    unfold SearchIndex.addFile
    cases hmt : mt p with
    | none => simp only [hmt]; rw [hidx]
    | some m => simp only [hmt]; rw [hidx, setTS_idem]
  exact ⟨hmain, fun q => by rw [hmain]⟩

/-- C2 counterexample: with an empty search history and a nonexistent
root path, `search_files` raises and the history stays empty -- no
descriptor of the query is ever appended -- whereas the claim demands
that the history append happen before root-path validation can abort
the call. -/
theorem history_append_counterexample :
    searchFiles noRe noFlag Finset.toList noStat noMt initEngine
      { path := ["nope"], pathExists := false, isDir := false, entries := .nil }
      (defaultCriteria "*") 1000 true 7 0 =
      (.error .rootNotExist, ([] : List HistoryEntry)) := by decide

/-- C2 (amended): root-path validation happens first.  An invocation
whose root path does not exist or is not a directory raises with the
history untouched; an invocation that passes validation appends exactly
one descriptor of the query to the bounded history before any results
are computed, regardless of the outcome. -/
theorem history_append_after_validation (reSearch : String → String → Bool)
    (flag : Nat → Bool) (setOrder : Finset FMPath → List FMPath)
    (statF : FMPath → Option StatInfo) (mt : FMPath → Option Nat) (eng : SearchEngine)
    (r : RootArg) (c : Criteria) (maxResults : Nat) (useIndex : Bool) (now t : Nat) :
    (r.pathExists = false →
      searchFiles reSearch flag setOrder statF mt eng r c maxResults useIndex now t =
        (.error .rootNotExist, eng.searchHistory)) ∧
    (r.pathExists = true → r.isDir = false →
      searchFiles reSearch flag setOrder statF mt eng r c maxResults useIndex now t =
        (.error .rootNotDir, eng.searchHistory)) ∧
    (r.pathExists = true → r.isDir = true →
      (searchFiles reSearch flag setOrder statF mt eng r c maxResults useIndex now t).2 =
        addToHistory eng.maxHistory eng.searchHistory
          { pattern := c.pattern, contentSearch := c.contentSearch, timestamp := now,
            rootPath := r.path, fileType := c.fileType }) := by
  refine ⟨?_, ?_, ?_⟩
  · intro h
    unfold searchFiles
    rw [h]
    rfl
  · intro h1 h2
    unfold searchFiles
    rw [h1, h2]
    rfl
  · intro h1 h2
    unfold searchFiles
    rw [h1, h2]
    simp only [Bool.not_true, Bool.false_eq_true, if_false]
    split <;> rfl

/-- Witness for C2 (amended) at a concrete input: a validated call on
the example root appends exactly the descriptor of the query. -/
theorem history_append_after_validation_witness :
    (searchFiles noRe noFlag Finset.toList noStat noMt initEngine exRoot
      (defaultCriteria "*.txt") 1000 false 7 0).2 =
      addToHistory 50 []
        { pattern := "*.txt", contentSearch := none, timestamp := 7,
          rootPath := ["root"], fileType := none } :=
  (history_append_after_validation noRe noFlag Finset.toList noStat noMt initEngine exRoot
    (defaultCriteria "*.txt") 1000 false 7 0).2.2 rfl rfl

/-- C8: the indexed strategy runs exactly when `use_index` is true,
indexing is enabled and no (truthy) content term was given; in every
other case -- in particular whenever a truthy content term is present
-- the full filesystem walk runs. -/
theorem strategy_selection (reSearch : String → String → Bool) (flag : Nat → Bool)
    (setOrder : Finset FMPath → List FMPath) (statF : FMPath → Option StatInfo)
    (mt : FMPath → Option Nat) (eng : SearchEngine) (r : RootArg) (c : Criteria)
    (maxResults : Nat) (useIndex : Bool) (now t : Nat)
    (hex : r.pathExists = true) (hdir : r.isDir = true) :
    ((useIndex && eng.indexingEnabled && !strOptTruthy c.contentSearch) = true →
      searchFiles reSearch flag setOrder statF mt eng r c maxResults useIndex now t =
        (.ok (searchWithIndex reSearch flag setOrder statF mt eng r c maxResults t).1,
         addToHistory eng.maxHistory eng.searchHistory
           { pattern := c.pattern, contentSearch := c.contentSearch, timestamp := now,
             rootPath := r.path, fileType := c.fileType })) ∧
    ((useIndex && eng.indexingEnabled && !strOptTruthy c.contentSearch) = false →
      searchFiles reSearch flag setOrder statF mt eng r c maxResults useIndex now t =
        (.ok (searchFilesystem reSearch flag c eng.maxFileSizeForContentSearch maxResults r t).1,
         addToHistory eng.maxHistory eng.searchHistory
           { pattern := c.pattern, contentSearch := c.contentSearch, timestamp := now,
             rootPath := r.path, fileType := c.fileType })) ∧
    (strOptTruthy c.contentSearch = true →
      searchFiles reSearch flag setOrder statF mt eng r c maxResults useIndex now t =
        (.ok (searchFilesystem reSearch flag c eng.maxFileSizeForContentSearch maxResults r t).1,
         addToHistory eng.maxHistory eng.searchHistory
           { pattern := c.pattern, contentSearch := c.contentSearch, timestamp := now,
             rootPath := r.path, fileType := c.fileType })) := by
  refine ⟨?_, ?_, ?_⟩
  · intro h
    unfold searchFiles
    rw [hex, hdir]
    simp only [Bool.not_true, Bool.false_eq_true, if_false, h, if_true]
  · intro h
    unfold searchFiles
    rw [hex, hdir]
    simp only [Bool.not_true, Bool.false_eq_true, if_false, h]
  · intro h
    unfold searchFiles
    rw [hex, hdir]
    simp only [Bool.not_true, Bool.false_eq_true, if_false, h, Bool.not_false,
      Bool.and_false, Bool.false_eq_true]

/-- Witness for C8 at a concrete input: a truthy content term forces
the filesystem strategy even with `use_index` and indexing enabled. -/
theorem strategy_selection_witness :
    searchFiles noRe noFlag Finset.toList noStat noMt initEngine exRoot
      { defaultCriteria "*" with contentSearch := some "hello" } 1000 true 7 0 =
      (.ok (searchFilesystem noRe noFlag
              { defaultCriteria "*" with contentSearch := some "hello" }
              initEngine.maxFileSizeForContentSearch 1000 exRoot 0).1,
       addToHistory initEngine.maxHistory initEngine.searchHistory
         { pattern := "*", contentSearch := some "hello", timestamp := 7,
           rootPath := ["root"], fileType := none }) :=
  (strategy_selection noRe noFlag Finset.toList noStat noMt initEngine exRoot
    { defaultCriteria "*" with contentSearch := some "hello" } 1000 true 7 0 rfl rfl).2.2
    (by decide)

/-- An engine whose index holds a path outside the quick-search root. -/
def exIndexEngine : SearchEngine :=
  { searchHistory := [], maxHistory := 50,
    index := { index := [("foo", {(["elsewhere", "foo.txt"] : FMPath)})], fileTimestamps := [] },
    indexingEnabled := true, maxFileSizeForContentSearch := 10 * 1024 * 1024 }

/-- A concrete set-iteration order: enumerate the outside path when the
set contains it.  Faithful in the sense that it only enumerates members
of its argument. -/
def exSetOrder : Finset FMPath → List FMPath :=
  fun s => if (["elsewhere", "foo.txt"] : FMPath) ∈ s then [["elsewhere", "foo.txt"]] else []

/-- A quick-search root `/home` unrelated to the indexed paths. -/
def exHomeRoot : RootArg :=
  { path := ["home"], pathExists := true, isDir := true, entries := .nil }

/-- C10: with indexing enabled, `quick_search` returns up to
`max_results` paths taken directly from `SearchIndex.search(query)`
without filtering them against the root path (which is only checked for
existence, so returned paths may lie entirely outside its subtree), and
the cancellation flag is never consulted on this branch. -/
theorem quickSearch_indexed_branch (flag flag2 : Nat → Bool)
    (setOrder : Finset FMPath → List FMPath) (eng : SearchEngine) (r : RootArg)
    (q : String) (maxResults : Nat)
    (hen : eng.indexingEnabled = true) (hex : r.pathExists = true) :
    (quickSearch flag setOrder eng r q maxResults =
       .ok ((setOrder (eng.index.search q)).take maxResults)) ∧
    (quickSearch flag setOrder eng r q maxResults =
       quickSearch flag2 setOrder eng r q maxResults) ∧
    (((setOrder (eng.index.search q)).take maxResults).length ≤ maxResults) ∧
    ((∀ s : Finset FMPath, ∀ p ∈ setOrder s, p ∈ s) →
      ∀ p ∈ (setOrder (eng.index.search q)).take maxResults, p ∈ eng.index.search q) ∧
    (∃ (eng2 : SearchEngine) (r2 : RootArg) (q2 : String)
        (setOrder2 : Finset FMPath → List FMPath) (p : FMPath) (l : List FMPath),
      (∀ s : Finset FMPath, ∀ p2 ∈ setOrder2 s, p2 ∈ s) ∧
      eng2.indexingEnabled = true ∧ r2.pathExists = true ∧
      quickSearch noFlag setOrder2 eng2 r2 q2 100 = .ok l ∧ p ∈ l ∧ ¬ (r2.path <+: p)) := by
  have hbranch : ∀ fl : Nat → Bool,
      quickSearch fl setOrder eng r q maxResults =
        .ok ((setOrder (eng.index.search q)).take maxResults) := by
    intro fl
    unfold quickSearch
    rw [hex, hen]
    rfl
  refine ⟨hbranch flag, by rw [hbranch flag, hbranch flag2], ?_, ?_, ?_⟩
  · rw [List.length_take]
    exact min_le_left _ _
  · intro hOrder p hp
    exact hOrder _ p (List.mem_of_mem_take hp)
  · refine ⟨exIndexEngine, exHomeRoot, "foo", exSetOrder, ["elsewhere", "foo.txt"],
      [["elsewhere", "foo.txt"]], ?_, rfl, rfl, by decide, by simp, by decide⟩
    intro s p2 hp2
    unfold exSetOrder at hp2
    by_cases hmem : (["elsewhere", "foo.txt"] : FMPath) ∈ s
    · rw [if_pos hmem] at hp2
      simp only [List.mem_singleton] at hp2
      exact hp2 ▸ hmem
    · rw [if_neg hmem] at hp2
      simp at hp2

/-- Witness for C10 at a concrete input: the indexed branch returns the
index hit even though it lies outside the root subtree. -/
theorem quickSearch_indexed_branch_witness :
    quickSearch noFlag exSetOrder exIndexEngine exHomeRoot "foo" 100 =
      .ok ((exSetOrder (exIndexEngine.index.search "foo")).take 100) :=
  (quickSearch_indexed_branch noFlag allFlag exSetOrder exIndexEngine exHomeRoot
    "foo" 100 rfl rfl).1

theorem findLine_eq_none (tx : String) (cs : Bool) :
    ∀ (ls : List String) (k : Nat),
      (∀ l ∈ ls, strContains (if cs then l else strLower l) tx = false) →
      findLine tx cs ls k = none := by
  intro ls
  induction ls with
  | nil => intro k _; rfl
  | cons l rest ih =>
      intro k h
      unfold findLine
      rw [h l (List.mem_cons_self l rest)]
      exact ih (k + 1) fun l2 h2 => h l2 (List.mem_cons_of_mem l h2)

theorem searchInFile_eq_none (f : FileInfo) (text : String) (cs : Bool)
    (h : ∀ l ∈ f.lines, strContains (if cs then l else strLower l)
        (if cs then text else strLower text) = false) :
    searchInFile f text cs = none := by
  unfold searchInFile
  by_cases ht : f.isText
  · simp only [ht, Bool.not_true, Bool.false_eq_true, if_false]
    exact findLine_eq_none _ cs f.lines 1 h
  · simp [ht]

/-- C6: in the filesystem strategy with a content term given, a file
that passes the earlier criteria, lies within the content-search size
limit, and whose content does not contain the (case-adjusted) term is
rejected by `_process_file` iff its filename does not match the content
term under the same glob/regex matching used for the name pattern; when
the filename does match, the file is accepted with match kind
`filename`. -/
theorem content_fallback (reSearch : String → String → Bool) (c : Criteria)
    (maxContentSize : Nat) (path : FMPath) (f : FileInfo) (cs : String)
    (hcs : c.contentSearch = some cs)
    (htr : strOptTruthy c.contentSearch = true)
    (hsize : f.size ≤ maxContentSize)
    (hnc : ∀ l ∈ f.lines, strContains (if c.caseSensitive then l else strLower l)
            (if c.caseSensitive then cs else strLower cs) = false)
    (hpat : matchPattern reSearch f.name c.pattern c.caseSensitive c.rgx = true)
    (hft : fileTypeReject c f.name = false)
    (hsmin : sizeMinReject c f.size = false)
    (hsmax : sizeMaxReject c f.size = false)
    (hdf : dateFromReject c f.mtime = false)
    (hdt : dateToReject c f.mtime = false) :
    (matchPattern reSearch f.name cs c.caseSensitive c.rgx = false →
      processFile reSearch c maxContentSize path f = none) ∧
    (matchPattern reSearch f.name cs c.caseSensitive c.rgx = true →
      processFile reSearch c maxContentSize path f = some
        { path := path, name := f.name, size := f.size, modified := f.mtime,
          directory := path.dropLast, matchType := "filename",
          matchLine := none, matchLineNumber := none }) := by
  have hnone : searchInFile f cs c.caseSensitive = none :=
    searchInFile_eq_none f cs c.caseSensitive hnc
  have hgetD : c.contentSearch.getD "" = cs := by rw [hcs]; rfl
  have hnlt : ¬ (maxContentSize < f.size) := by omega
  unfold processFile
  rw [hpat, hft, hsmin, hsmax, hdf, hdt, htr, hgetD]
  simp only [Bool.not_true, Bool.false_eq_true, if_false, if_true, hnlt, hnone]
  constructor
  · intro h; rw [h]; rfl
  · intro h; rw [h]; rfl

/-- Example file named `zzz` whose content does not contain `zzz`. -/
def exFileZ : FileInfo :=
  { name := "zzz", size := 1, mtime := 0, lines := ["abc"], isText := true }

/-- Witness for C6 at a concrete input: the content term `zzz` is
absent from the content but matches the filename as a pattern, so the
file is kept as a filename match. -/
theorem content_fallback_witness :
    processFile noRe { defaultCriteria "*" with contentSearch := some "zzz" } 10
      ["root", "zzz"] exFileZ = some
        { path := ["root", "zzz"], name := "zzz", size := 1, modified := 0,
          directory := ["root"], matchType := "filename",
          matchLine := none, matchLineNumber := none } :=
  (content_fallback noRe { defaultCriteria "*" with contentSearch := some "zzz" } 10
    ["root", "zzz"] exFileZ "zzz" rfl (by decide) (by decide) (by decide) (by decide)
    (by decide) (by decide) (by decide) (by decide) (by decide)).2 (by decide)

/-- The result list of a non-raising call. -/
def okResults : Except SearchErr (List SearchResult) → List SearchResult
  | .ok l => l
  | .error _ => []

theorem processFile_content_size (reSearch : String → String → Bool) (c : Criteria)
    (maxContentSize : Nat) (path : FMPath) (f : FileInfo) (r : SearchResult)
    (h : processFile reSearch c maxContentSize path f = some r) :
    r.size = f.size ∧ (r.matchType = "content" → f.size ≤ maxContentSize) := by
  unfold processFile at h
  by_cases h1 : matchPattern reSearch f.name c.pattern c.caseSensitive c.rgx
  swap
  · simp only [h1] at h
    simp at h1
    simp [h1] at h
  simp only [h1, Bool.not_true, Bool.false_eq_true, if_false] at h
  by_cases h2 : fileTypeReject c f.name
  · simp [h2] at h
  simp only [h2, Bool.false_eq_true, if_false] at h
  by_cases h3 : sizeMinReject c f.size
  · simp [h3] at h
  simp only [h3, Bool.false_eq_true, if_false] at h
  by_cases h4 : sizeMaxReject c f.size
  · simp [h4] at h
  simp only [h4, Bool.false_eq_true, if_false] at h
  by_cases h5 : dateFromReject c f.mtime
  · simp [h5] at h
  simp only [h5, Bool.false_eq_true, if_false] at h
  by_cases h6 : dateToReject c f.mtime
  · simp [h6] at h
  simp only [h6, Bool.false_eq_true, if_false] at h
  by_cases h7 : strOptTruthy c.contentSearch
  · simp only [h7, if_true] at h
    by_cases h8 : maxContentSize < f.size
    · rw [if_pos h8] at h
      obtain rfl := Option.some.inj h
      exact ⟨rfl, by intro hc; simp at hc⟩
    · rw [if_neg h8] at h
      cases hscan : searchInFile f (c.contentSearch.getD "") c.caseSensitive with
      | some pr =>
          rw [hscan] at h
          obtain ⟨line, k⟩ := pr
          obtain rfl := Option.some.inj h
          exact ⟨rfl, fun _ => by omega⟩
      | none =>
          rw [hscan] at h
          by_cases h9 : matchPattern reSearch f.name (c.contentSearch.getD "")
              c.caseSensitive c.rgx
          · rw [if_pos h9] at h
            obtain rfl := Option.some.inj h
            exact ⟨rfl, by intro hc; simp at hc⟩
          · rw [if_neg h9] at h
            cases h
  · simp only [h7, Bool.false_eq_true, if_false] at h
    obtain rfl := Option.some.inj h
    exact ⟨rfl, by intro hc; simp at hc⟩

theorem fsInner_mem (reSearch : String → String → Bool) (flag : Nat → Bool) (c : Criteria)
    (mcs maxR : Nat) (dp : FMPath) :
    ∀ (files : List FileInfo) (acc : List SearchResult) (t : Nat) (r : SearchResult),
      r ∈ (fsInner reSearch flag c mcs maxR dp files acc t).1 →
      r ∈ acc ∨ ∃ (p : FMPath) (f : FileInfo), processFile reSearch c mcs p f = some r := by
  intro files
  induction files with
  | nil => intro acc t r h; exact Or.inl h
  | cons f rest ih =>
      intro acc t r h
      unfold fsInner at h
      split at h
      · exact Or.inl h
      · cases hp : processFile reSearch c mcs (dp ++ [f.name]) f with
        | some r2 =>
            rw [hp] at h
            rcases ih _ _ r h with hacc | hex
            · rcases List.mem_append.1 hacc with hl | hl
              · exact Or.inl hl
              · exact Or.inr ⟨dp ++ [f.name], f, by rw [hp, List.mem_singleton.1 hl]⟩
            · exact Or.inr hex
        | none =>
            rw [hp] at h
            exact ih _ _ r h

theorem fsOuter_mem (reSearch : String → String → Bool) (flag : Nat → Bool) (c : Criteria)
    (mcs maxR : Nat) :
    ∀ (dirs : List (FMPath × List FileInfo)) (acc : List SearchResult) (t : Nat)
      (r : SearchResult),
      r ∈ (fsOuter reSearch flag c mcs maxR dirs acc t).1 →
      r ∈ acc ∨ ∃ (p : FMPath) (f : FileInfo), processFile reSearch c mcs p f = some r := by
  intro dirs
  induction dirs with
  | nil => intro acc t r h; exact Or.inl h
  | cons d rest ih =>
      intro acc t r h
      unfold fsOuter at h
      split at h
      · exact Or.inl h
      · rcases ih _ _ r h with hacc | hex
        · exact fsInner_mem reSearch flag c mcs maxR d.1 d.2 acc (t + 1) r hacc
        · exact Or.inr hex

theorem candLoop_mem (reSearch : String → String → Bool) (flag : Nat → Bool)
    (statF : FMPath → Option StatInfo) (c : Criteria) (maxR : Nat) :
    ∀ (cands : List FMPath) (acc : List SearchResult) (t : Nat) (r : SearchResult),
      r ∈ (candLoop reSearch flag statF c maxR cands acc t).1 →
      r ∈ acc ∨ ∃ (p : FMPath) (s : StatInfo), r = mkIndexResult p s := by
  intro cands
  induction cands with
  | nil => intro acc t r h; exact Or.inl h
  | cons p rest ih =>
      intro acc t r h
      unfold candLoop at h
      split at h
      · exact Or.inl h
      · split at h
        · cases hs : statF p with
          | some s =>
              rw [hs] at h
              rcases ih _ _ r h with hacc | hex
              · rcases List.mem_append.1 hacc with hl | hl
                · exact Or.inl hl
                · exact Or.inr ⟨p, s, List.mem_singleton.1 hl⟩
              · exact Or.inr hex
          | none =>
              rw [hs] at h
              exact ih _ _ r h
        · exact ih _ _ r h

theorem searchWithIndex_mem (reSearch : String → String → Bool) (flag : Nat → Bool)
    (setOrder : Finset FMPath → List FMPath) (statF : FMPath → Option StatInfo)
    (mt : FMPath → Option Nat) (eng : SearchEngine) (r : RootArg) (c : Criteria)
    (maxResults t : Nat) (res : SearchResult)
    (h : res ∈ (searchWithIndex reSearch flag setOrder statF mt eng r c maxResults t).1) :
    ∃ (p : FMPath) (s : StatInfo), res = mkIndexResult p s := by
  unfold searchWithIndex at h
  dsimp only at h
  split at h
  · simp at h
  · rcases candLoop_mem reSearch flag statF c maxResults _ _ _ res h with hacc | hex
    · simp at hacc
    · exact hex

/-- C7: no invocation of `search_files` ever produces a `SearchResult`
with match kind `content` for a file whose size exceeds
`max_file_size_for_content_search`; such a file can only appear as a
filename match. -/
theorem content_match_size_bound (reSearch : String → String → Bool) (flag : Nat → Bool)
    (setOrder : Finset FMPath → List FMPath) (statF : FMPath → Option StatInfo)
    (mt : FMPath → Option Nat) (eng : SearchEngine) (r : RootArg) (c : Criteria)
    (maxResults : Nat) (useIndex : Bool) (now t : Nat) (res : SearchResult)
    (hmem : res ∈ okResults
      (searchFiles reSearch flag setOrder statF mt eng r c maxResults useIndex now t).1)
    (hct : res.matchType = "content") :
    res.size ≤ eng.maxFileSizeForContentSearch := by
  unfold searchFiles at hmem
  split at hmem
  · simp [okResults] at hmem
  · split at hmem
    · simp [okResults] at hmem
    · split at hmem
      · simp only [okResults] at hmem
        obtain ⟨p, s, rfl⟩ := searchWithIndex_mem reSearch flag setOrder statF mt eng r c
          maxResults t res hmem
        exact absurd hct (by simp [mkIndexResult])
      · simp only [okResults] at hmem
        rcases fsOuter_mem reSearch flag c eng.maxFileSizeForContentSearch maxResults
            (rootWalk r) [] t res hmem with hacc | ⟨p, f, hp⟩
        · simp at hacc
        · obtain ⟨hsz, hbound⟩ := processFile_content_size reSearch c
            eng.maxFileSizeForContentSearch p f res hp
          rw [hsz]
          exact hbound hct

/-- Witness for C7 at a concrete input: the content match on the
example tree indeed concerns a file within the size limit. -/
theorem content_match_size_bound_witness :
    ({ path := ["root", "a.txt"], name := "a.txt", size := 5, modified := 0,
       directory := ["root"], matchType := "content", matchLine := some "hello",
       matchLineNumber := some 1 } : SearchResult).size ≤
      initEngine.maxFileSizeForContentSearch :=
  content_match_size_bound noRe noFlag exSetOrder noStat noMt initEngine exRoot
    { defaultCriteria "*" with contentSearch := some "hello" } 1000 true 7 0 _
    (by decide) (by decide)

/-- The `SearchResult` built for a plain filename match (no content
criterion). -/
def mkPlainResult (path : FMPath) (f : FileInfo) : SearchResult :=
  { path := path, name := f.name, size := f.size, modified := f.mtime,
    directory := path.dropLast, matchType := "filename",
    matchLine := none, matchLineNumber := none }

theorem processFile_default (reSearch : String → String → Bool) (pat : String)
    (mcs : Nat) (path : FMPath) (f : FileInfo) :
    processFile reSearch (defaultCriteria pat) mcs path f =
      if matchPattern reSearch f.name pat false false then some (mkPlainResult path f)
      else none := by
  unfold processFile defaultCriteria
  by_cases h : matchPattern reSearch f.name pat false false <;>
    simp [h, fileTypeReject, sizeMinReject, sizeMaxReject, dateFromReject, dateToReject,
      strOptTruthy, mkPlainResult]

theorem filterMap_ite {α β : Type} (p : α → Bool) (g : α → β) (l : List α) :
    (l.filterMap fun a => if p a then some (g a) else none) = (l.filter p).map g := by
  induction l with
  | nil => rfl
  | cons a rest ih => by_cases h : p a <;> simp [h, ih]

theorem fsInner_noflag (reSearch : String → String → Bool) (c : Criteria)
    (mcs maxR : Nat) (dp : FMPath) :
    ∀ (files : List FileInfo) (acc : List SearchResult) (t : Nat), acc.length ≤ maxR →
      (fsInner reSearch noFlag c mcs maxR dp files acc t).1 =
        acc ++ (files.filterMap fun f => processFile reSearch c mcs (dp ++ [f.name]) f).take
          (maxR - acc.length) := by
  intro files
  induction files with
  | nil => intro acc t _; simp [fsInner]
  | cons f rest ih =>
      intro acc t hlen
      unfold fsInner
      by_cases hfull : maxR ≤ acc.length
      · have : acc.length = maxR := by omega
        simp [noFlag, hfull, this]
      · simp only [noFlag, Bool.false_or, decide_eq_true_eq, hfull, if_false]
        cases hp : processFile reSearch c mcs (dp ++ [f.name]) f with
        | some r =>
            rw [ih (acc ++ [r]) (t + 1) (by simp; omega)]
            have hk : maxR - acc.length = (maxR - (acc ++ [r]).length) + 1 := by
              simp; omega
            simp only [List.filterMap_cons, hp, hk, List.take_succ_cons, List.append_assoc,
              List.singleton_append, List.length_append, List.length_singleton]
        | none =>
            rw [ih acc (t + 1) hlen]
            simp only [List.filterMap_cons, hp]

theorem flatFiles_cons (d : FMPath × List FileInfo) (rest : List (FMPath × List FileInfo)) :
    flatFiles (d :: rest) = d.2.map (fun f => (d.1 ++ [f.name], f)) ++ flatFiles rest := rfl

theorem fsOuter_noflag (reSearch : String → String → Bool) (c : Criteria) (mcs maxR : Nat) :
    ∀ (dirs : List (FMPath × List FileInfo)) (acc : List SearchResult) (t : Nat),
      acc.length ≤ maxR →
      (fsOuter reSearch noFlag c mcs maxR dirs acc t).1 =
        acc ++ ((flatFiles dirs).filterMap fun pf =>
          processFile reSearch c mcs pf.1 pf.2).take (maxR - acc.length) := by
  intro dirs
  induction dirs with
  | nil => intro acc t _; simp [fsOuter, flatFiles]
  | cons d rest ih =>
      intro acc t hlen
      unfold fsOuter
      simp only [noFlag, Bool.false_eq_true, if_false]
      rw [fsInner_noflag reSearch c mcs maxR d.1 d.2 acc (t + 1) hlen]
      have hmapped :
          (d.2.filterMap fun f => processFile reSearch c mcs (d.1 ++ [f.name]) f) =
            ((d.2.map fun f => (d.1 ++ [f.name], f)).filterMap fun pf =>
              processFile reSearch c mcs pf.1 pf.2) := by
        rw [List.filterMap_map]
        rfl
      rw [hmapped]
      set FA := (d.2.map fun f => (d.1 ++ [f.name], f)).filterMap fun pf =>
        processFile reSearch c mcs pf.1 pf.2 with hFA
      rw [ih (acc ++ FA.take (maxR - acc.length)) _ (by simp [List.length_take]; omega)]
      rw [flatFiles_cons, List.filterMap_append]
      rw [List.take_append_eq_append_take]
      have heq : maxR - (acc ++ FA.take (maxR - acc.length)).length =
          maxR - acc.length - FA.length := by
        simp [List.length_take]
        omega
      rw [heq, List.append_assoc]

/-- General characterization of the default filesystem search: the
result is the walk-order list of visible files whose base name matches
the pattern, truncated to `max_results`, each as a plain filename
match. -/
theorem searchFiles_default_char (reSearch : String → String → Bool)
    (setOrder : Finset FMPath → List FMPath) (statF : FMPath → Option StatInfo)
    (mt : FMPath → Option Nat) (eng : SearchEngine) (r : RootArg) (pat : String)
    (maxResults : Nat) (now t : Nat)
    (hex : r.pathExists = true) (hdir : r.isDir = true) :
    (searchFiles reSearch noFlag setOrder statF mt eng r (defaultCriteria pat)
        maxResults false now t).1 =
      .ok ((((flatFiles (rootWalk r)).filter fun pf =>
          matchPattern reSearch pf.2.name pat false false).take maxResults).map
        fun pf => mkPlainResult pf.1 pf.2) := by
  unfold searchFiles
  rw [hex, hdir]
  simp only [Bool.not_true, Bool.false_eq_true, if_false, Bool.false_and, Bool.and_false]
  unfold searchFilesystem
  rw [fsOuter_noflag reSearch (defaultCriteria pat) eng.maxFileSizeForContentSearch
    maxResults (rootWalk r) [] t (by simp)]
  have hpf : ((flatFiles (rootWalk r)).filterMap fun pf =>
      processFile reSearch (defaultCriteria pat) eng.maxFileSizeForContentSearch pf.1 pf.2) =
      ((flatFiles (rootWalk r)).filter fun pf =>
        matchPattern reSearch pf.2.name pat false false).map fun pf =>
          mkPlainResult pf.1 pf.2 := by
    rw [← filterMap_ite]
    congr 1
    funext pf
    exact processFile_default reSearch pat eng.maxFileSizeForContentSearch pf.1 pf.2
  rw [hpf, ← List.map_take]
  simp

/-- C1 (amended): `search_files(T, P)` with `use_index = False` and all
other criteria at their defaults returns, in walk order, the files of T
outside hidden directories whose base name matches P (glob semantics,
or the regex oracle when the regex flag would be set -- here the
default, glob), truncated to the default `max_results` of 1000; when at
most 1000 files match, this is exactly the set of matching files and no
others. -/
theorem filesystem_default_search (reSearch : String → String → Bool)
    (setOrder : Finset FMPath → List FMPath) (statF : FMPath → Option StatInfo)
    (mt : FMPath → Option Nat) (eng : SearchEngine) (r : RootArg) (pat : String)
    (now t : Nat) (hex : r.pathExists = true) (hdir : r.isDir = true) :
    ((searchFiles reSearch noFlag setOrder statF mt eng r (defaultCriteria pat)
        1000 false now t).1 =
      .ok ((((flatFiles (rootWalk r)).filter fun pf =>
          matchPattern reSearch pf.2.name pat false false).take 1000).map
        fun pf => mkPlainResult pf.1 pf.2)) ∧
    (((flatFiles (rootWalk r)).filter fun pf =>
        matchPattern reSearch pf.2.name pat false false).length ≤ 1000 →
      (searchFiles reSearch noFlag setOrder statF mt eng r (defaultCriteria pat)
          1000 false now t).1 =
        .ok (((flatFiles (rootWalk r)).filter fun pf =>
            matchPattern reSearch pf.2.name pat false false).map
          fun pf => mkPlainResult pf.1 pf.2)) := by
  refine ⟨searchFiles_default_char reSearch setOrder statF mt eng r pat 1000 now t hex hdir,
    fun hle => ?_⟩
  rw [searchFiles_default_char reSearch setOrder statF mt eng r pat 1000 now t hex hdir,
    List.take_of_length_le hle]

/-- Witness for C1 (amended) at a concrete input: the example tree
with pattern `*.txt` returns exactly `a.txt` (hidden directory
pruned). -/
theorem filesystem_default_search_witness :
    (searchFiles noRe noFlag exSetOrder noStat noMt initEngine exRoot
        (defaultCriteria "*.txt") 1000 false 7 0).1 =
      .ok ((((flatFiles (rootWalk exRoot)).filter fun pf =>
          matchPattern noRe pf.2.name "*.txt" false false).take 1000).map
        fun pf => mkPlainResult pf.1 pf.2) :=
  (filesystem_default_search noRe exSetOrder noStat noMt initEngine exRoot "*.txt"
    7 0 rfl rfl).1

theorem entriesFiles_ofFiles (l : List FileInfo) :
    entriesFiles (toEntries (l.map FSTree.file)) = l := by
  induction l with
  | nil => rfl
  | cons f rest ih => simp [toEntries, entriesFiles, ih]

theorem walkList_ofFiles (dp : FMPath) (l : List FileInfo) :
    walkList dp (toEntries (l.map FSTree.file)) = [] := by
  induction l with
  | nil => rfl
  | cons f rest ih => simp [toEntries, walkList, ih]

theorem nil_mem_listTails (n : List Char) : ([] : List Char) ∈ listTails n := by
  induction n with
  | nil => simp [listTails]
  | cons c cs ih => exact List.mem_cons_of_mem _ ih

/-- The glob `*` matches every name. -/
theorem matchPattern_star (reSearch : String → String → Bool) (name : String) :
    matchPattern reSearch name "*" false false = true := by
  unfold matchPattern fnmatchGlob
  simp only [Bool.false_eq_true, if_false]
  have hparse : parseGlob (strLower "*").data.length (strLower "*").data = [.star] := rfl
  rw [hparse]
  unfold gmatch
  simp only [List.any_eq_true]
  exact ⟨[], nil_mem_listTails _, rfl⟩

/-- The file name `a…a` with `i + 1` copies of `a`. -/
def bigName (i : Nat) : String := String.mk (List.replicate (i + 1) 'a')

/-- The `i`-th file of the 1001-file counterexample tree. -/
def bigFile (i : Nat) : FileInfo :=
  { name := bigName i, size := 0, mtime := 0, lines := [], isText := true }

/-- A flat directory with 1001 files, all matching the pattern `*`. -/
def bigRoot : RootArg :=
  { path := ["r"], pathExists := true, isDir := true,
    entries := toEntries (((List.range 1001).map bigFile).map FSTree.file) }

theorem bigName_injective : Function.Injective bigName := by
  intro i j h
  have hlen := congrArg String.length h
  simp only [bigName, String.length, List.length_replicate] at hlen
  omega

theorem flatFiles_single (dp : FMPath) (files : List FileInfo) :
    flatFiles [(dp, files)] = files.map fun f => (dp ++ [f.name], f) := by
  rw [flatFiles_cons]
  simp [flatFiles]

theorem flatFiles_bigRoot :
    flatFiles (rootWalk bigRoot) =
      (List.range 1001).map fun i => ((["r", bigName i] : FMPath), bigFile i) := by
  have h1 : rootWalk bigRoot = [(["r"], (List.range 1001).map bigFile)] := by
    unfold bigRoot rootWalk
    rw [walkList_ofFiles, entriesFiles_ofFiles]
  rw [h1, flatFiles_single, List.map_map]
  exact List.map_congr_left fun i _ => rfl

/-- C1 counterexample: on a flat tree of 1001 matching files, the call
with defaults (in particular the default `max_results` of 1000) does
not return every matching file -- the claim's "returns exactly the
files … whose base name matches P" fails. -/
theorem filesystem_default_search_counterexample :
    ¬ (∀ pf ∈ ((flatFiles (rootWalk bigRoot)).filter fun pf =>
          matchPattern noRe pf.2.name "*" false false),
        ∃ res ∈ okResults (searchFiles noRe noFlag exSetOrder noStat noMt initEngine
          bigRoot (defaultCriteria "*") 1000 false 0 0).1,
        res.path = pf.1) := by
  intro hall
  have hchar := searchFiles_default_char noRe exSetOrder noStat noMt initEngine bigRoot
    "*" 1000 0 0 rfl rfl
  have hfilter : ((flatFiles (rootWalk bigRoot)).filter fun pf =>
      matchPattern noRe pf.2.name "*" false false) = flatFiles (rootWalk bigRoot) := by
    apply List.filter_eq_self.2
    intro pf _
    exact matchPattern_star noRe pf.2.name
  rw [hfilter] at hall
  rw [hfilter] at hchar
  have hresults : okResults (searchFiles noRe noFlag exSetOrder noStat noMt initEngine
      bigRoot (defaultCriteria "*") 1000 false 0 0).1 =
      ((flatFiles (rootWalk bigRoot)).take 1000).map fun pf => mkPlainResult pf.1 pf.2 := by
    rw [hchar]
    simp only [okResults]
  have hreslen : (okResults (searchFiles noRe noFlag exSetOrder noStat noMt initEngine
      bigRoot (defaultCriteria "*") 1000 false 0 0).1).length = 1000 := by
    rw [hresults, List.length_map, List.length_take, flatFiles_bigRoot, List.length_map,
      List.length_range]
    omega
  have hsub : ((flatFiles (rootWalk bigRoot)).map Prod.fst) ⊆
      (okResults (searchFiles noRe noFlag exSetOrder noStat noMt initEngine
        bigRoot (defaultCriteria "*") 1000 false 0 0).1).map SearchResult.path := by
    intro p hp
    obtain ⟨pf, hpf, rfl⟩ := List.mem_map.1 hp
    obtain ⟨res, hres2, hpath⟩ := hall pf hpf
    exact List.mem_map.2 ⟨res, hres2, hpath⟩
  have hnodup : ((flatFiles (rootWalk bigRoot)).map Prod.fst).Nodup := by
    rw [flatFiles_bigRoot, List.map_map]
    refine List.Nodup.map ?_ (List.nodup_range 1001)
    intro i j h
    simp only [Function.comp, List.cons.injEq, true_and, and_true] at h
    exact bigName_injective h
  have hle := (List.subperm_of_subset hnodup hsub).length_le
  rw [List.length_map, List.length_map, hreslen, flatFiles_bigRoot, List.length_map,
    List.length_range] at hle
  omega

/-- Example file `b.txt`, a second match for the cancellation run. -/
def exFileB : FileInfo :=
  { name := "b.txt", size := 2, mtime := 0, lines := [], isText := true }

/-- Root with two matching files for the cancellation counterexample. -/
def exRoot2 : RootArg :=
  { path := ["root"], pathExists := true, isDir := true,
    entries := toEntries [.file exFileA, .file exFileB] }

/-- A cancellation flag set from the second poll onward: cancellation
arrives while the walk is under way. -/
def flagAt2 : Nat → Bool := fun t => decide (2 ≤ t)

/-- C3 counterexample: with cancellation arriving during the walk
(after the first file has been processed), the filesystem strategy does
not raise an operation-cancelled error -- no cancellation raise exists
in the source -- but returns normally with the partial results accepted
so far: the first file only, although the second also matches. -/
theorem filesystem_cancellation_counterexample :
    searchFiles noRe flagAt2 exSetOrder noStat noMt initEngine exRoot2
      (defaultCriteria "*.txt") 1000 false 7 0 =
      (.ok [mkPlainResult ["root", "a.txt"] exFileA],
       [{ pattern := "*.txt", contentSearch := none, timestamp := 7,
          rootPath := ["root"], fileType := none }]) := by
  decide

/-- Monotonicity of the cancellation flag: a `threading.Event` stays
set once set, and `search_files` clears it only at entry. -/
def FlagMono (flag : Nat → Bool) : Prop :=
  ∀ i j : Nat, i ≤ j → flag i = true → flag j = true

theorem fsInner_full (reSearch : String → String → Bool) (flag : Nat → Bool) (c : Criteria)
    (mcs maxR : Nat) (dp : FMPath) (files : List FileInfo) (acc : List SearchResult) (t : Nat)
    (h : maxR ≤ acc.length) :
    (fsInner reSearch flag c mcs maxR dp files acc t).1 = acc := by
  cases files with
  | nil => rfl
  | cons f rest =>
      unfold fsInner
      simp [h]

theorem fsOuter_full (reSearch : String → String → Bool) (flag : Nat → Bool) (c : Criteria)
    (mcs maxR : Nat) :
    ∀ (dirs : List (FMPath × List FileInfo)) (acc : List SearchResult) (t : Nat),
      maxR ≤ acc.length → (fsOuter reSearch flag c mcs maxR dirs acc t).1 = acc := by
  intro dirs
  induction dirs with
  | nil => intro acc t _; rfl
  | cons d rest ih =>
      intro acc t h
      unfold fsOuter
      by_cases hf : flag t
      · simp [hf]
      · simp only [hf, Bool.false_eq_true, if_false]
        have h1 : (fsInner reSearch flag c mcs maxR d.1 d.2 acc (t + 1)).1 = acc :=
          fsInner_full reSearch flag c mcs maxR d.1 d.2 acc (t + 1) h
        rw [ih _ _ (by rw [h1]; exact h), h1]

theorem fsOuter_stop (reSearch : String → String → Bool) (flag : Nat → Bool) (c : Criteria)
    (mcs maxR : Nat) (dirs : List (FMPath × List FileInfo)) (acc : List SearchResult) (t : Nat)
    (h : flag t = true) :
    (fsOuter reSearch flag c mcs maxR dirs acc t).1 = acc := by
  cases dirs with
  | nil => rfl
  | cons d rest =>
      unfold fsOuter
      simp [h]

theorem fsInner_flag_char (reSearch : String → String → Bool) (flag : Nat → Bool)
    (c : Criteria) (mcs maxR : Nat) (dp : FMPath) :
    ∀ (files : List FileInfo) (acc : List SearchResult) (t : Nat), acc.length ≤ maxR →
      ∃ j ≤ files.length,
        (fsInner reSearch flag c mcs maxR dp files acc t).1 =
          acc ++ ((files.take j).filterMap fun f =>
            processFile reSearch c mcs (dp ++ [f.name]) f).take (maxR - acc.length) ∧
        (j = files.length
          ∨ maxR ≤ (fsInner reSearch flag c mcs maxR dp files acc t).1.length
          ∨ ∃ tc, tc < (fsInner reSearch flag c mcs maxR dp files acc t).2 ∧ flag tc = true) := by
  intro files
  induction files with
  | nil =>
      intro acc t _
      exact ⟨0, Nat.le_refl 0, by simp [fsInner], Or.inl rfl⟩
  | cons f rest ih =>
      intro acc t hlen
      by_cases hf : flag t
      · refine ⟨0, Nat.zero_le _, ?_, Or.inr (Or.inr ⟨t, ?_, hf⟩)⟩
        · simp only [fsInner]
          simp [hf]
        · simp only [fsInner]
          simp [hf]
      · by_cases hfull : maxR ≤ acc.length
        · refine ⟨0, Nat.zero_le _, ?_, Or.inr (Or.inl ?_)⟩
          · simp only [fsInner]
            simp [hf, hfull]
          · simp only [fsInner]
            simp [hf, hfull]
        · have hlt : acc.length < maxR := by omega
          cases hp : processFile reSearch c mcs (dp ++ [f.name]) f with
          | some r =>
              obtain ⟨j, hj, heq, hdisj⟩ := ih (acc ++ [r]) (t + 1) (by simp; omega)
              have hstep : fsInner reSearch flag c mcs maxR dp (f :: rest) acc t =
                  fsInner reSearch flag c mcs maxR dp rest (acc ++ [r]) (t + 1) := by
                simp only [fsInner]
                simp [hf, hfull, hp]
              refine ⟨j + 1, by simp; omega, ?_, ?_⟩
              · rw [hstep, heq, List.take_succ_cons]
                simp only [List.filterMap_cons, hp]
                have hidx : maxR - acc.length = (maxR - (acc ++ [r]).length) + 1 := by
                  simp
                  omega
                rw [hidx, List.take_succ_cons, List.append_assoc, List.singleton_append]
              · rw [hstep]
                rcases hdisj with h1 | h2 | h3
                · exact Or.inl (by simp [h1])
                · exact Or.inr (Or.inl h2)
                · exact Or.inr (Or.inr h3)
          | none =>
              obtain ⟨j, hj, heq, hdisj⟩ := ih acc (t + 1) hlen
              have hstep : fsInner reSearch flag c mcs maxR dp (f :: rest) acc t =
                  fsInner reSearch flag c mcs maxR dp rest acc (t + 1) := by
                simp only [fsInner]
                simp [hf, hfull, hp]
              refine ⟨j + 1, by simp; omega, ?_, ?_⟩
              · rw [hstep, heq, List.take_succ_cons]
                simp only [List.filterMap_cons, hp]
              · rw [hstep]
                rcases hdisj with h1 | h2 | h3
                · exact Or.inl (by simp [h1])
                · exact Or.inr (Or.inl h2)
                · exact Or.inr (Or.inr h3)

theorem append_take_filterMap {α β : Type} (g : α → Option β) (A B : List α)
    (acc : List β) (maxR : Nat) :
    acc ++ ((A ++ B).filterMap g).take (maxR - acc.length) =
      (acc ++ (A.filterMap g).take (maxR - acc.length)) ++
        (B.filterMap g).take
          (maxR - (acc ++ (A.filterMap g).take (maxR - acc.length)).length) := by
  rw [List.filterMap_append, List.take_append_eq_append_take, ← List.append_assoc]
  congr 1
  have hidx : maxR - (acc ++ (A.filterMap g).take (maxR - acc.length)).length =
      maxR - acc.length - (A.filterMap g).length := by
    simp [List.length_take]
    omega
  rw [hidx]

theorem fsOuter_flag_char (reSearch : String → String → Bool) (flag : Nat → Bool)
    (c : Criteria) (mcs maxR : Nat) (hm : FlagMono flag) :
    ∀ (dirs : List (FMPath × List FileInfo)) (acc : List SearchResult) (t : Nat),
      acc.length ≤ maxR →
      ∃ fl, fl <+: flatFiles dirs ∧
        (fsOuter reSearch flag c mcs maxR dirs acc t).1 =
          acc ++ (fl.filterMap fun pf => processFile reSearch c mcs pf.1 pf.2).take
            (maxR - acc.length) := by
  intro dirs
  induction dirs with
  | nil =>
      intro acc t _
      exact ⟨[], List.nil_prefix, by simp [fsOuter]⟩
  | cons d rest ih =>
      intro acc t hlen
      by_cases hf : flag t
      · refine ⟨[], List.nil_prefix, ?_⟩
        simp only [fsOuter]
        simp [hf]
      · obtain ⟨j, hj, hieq, hdisj⟩ :=
          fsInner_flag_char reSearch flag c mcs maxR d.1 d.2 acc (t + 1) hlen
        have hpathed : ((d.2.take j).filterMap fun f =>
            processFile reSearch c mcs (d.1 ++ [f.name]) f) =
            (((d.2.map fun f => (d.1 ++ [f.name], f)).take j).filterMap
              fun pf => processFile reSearch c mcs pf.1 pf.2) := by
          rw [← List.map_take, List.filterMap_map]
          rfl
        have hstep : fsOuter reSearch flag c mcs maxR (d :: rest) acc t =
            fsOuter reSearch flag c mcs maxR rest
              (fsInner reSearch flag c mcs maxR d.1 d.2 acc (t + 1)).1
              (fsInner reSearch flag c mcs maxR d.1 d.2 acc (t + 1)).2 := by
          simp only [fsOuter]
          simp [hf]
        have hprefix1 : ((d.2.map fun f => (d.1 ++ [f.name], f)).take j) <+:
            flatFiles (d :: rest) := by
          rw [flatFiles_cons]
          exact (List.take_prefix _ _).trans (List.prefix_append _ _)
        rcases hdisj with hfull | hmax | ⟨tc, htc, htctrue⟩
        · subst hfull
          have htakeall : (d.2.map fun f => (d.1 ++ [f.name], f)).take d.2.length =
              d.2.map fun f => (d.1 ++ [f.name], f) :=
            List.take_of_length_le (by simp)
          have hin1 : (fsInner reSearch flag c mcs maxR d.1 d.2 acc (t + 1)).1 =
              acc ++ ((d.2.map fun f => (d.1 ++ [f.name], f)).filterMap
                fun pf => processFile reSearch c mcs pf.1 pf.2).take (maxR - acc.length) := by
            rw [hieq, hpathed, htakeall]
          obtain ⟨fl', hfl', heq'⟩ := ih
            (fsInner reSearch flag c mcs maxR d.1 d.2 acc (t + 1)).1
            (fsInner reSearch flag c mcs maxR d.1 d.2 acc (t + 1)).2
            (by rw [hin1]; simp [List.length_take]; omega)
          refine ⟨(d.2.map fun f => (d.1 ++ [f.name], f)) ++ fl', ?_, ?_⟩
          · obtain ⟨tail, htail⟩ := hfl'
            exact ⟨tail, by rw [flatFiles_cons, List.append_assoc, htail]⟩
          · rw [hstep, heq', hin1, append_take_filterMap]
        · refine ⟨(d.2.map fun f => (d.1 ++ [f.name], f)).take j, hprefix1, ?_⟩
          rw [hstep, fsOuter_full reSearch flag c mcs maxR rest _ _ hmax, hieq, hpathed]
        · have hflag2 : flag (fsInner reSearch flag c mcs maxR d.1 d.2 acc (t + 1)).2 = true :=
            hm tc _ (Nat.le_of_lt htc) htctrue
          refine ⟨(d.2.map fun f => (d.1 ++ [f.name], f)).take j, hprefix1, ?_⟩
          rw [hstep, fsOuter_stop reSearch flag c mcs maxR rest _ _ hflag2, hieq, hpathed]

theorem prefix_filterMap {α β : Type} (g : α → Option β) {A B : List α} (h : A <+: B) :
    A.filterMap g <+: B.filterMap g := by
  obtain ⟨tail, rfl⟩ := h
  exact ⟨tail.filterMap g, by rw [List.filterMap_append]⟩

theorem prefix_take {α : Type} (n : Nat) {A B : List α} (h : A <+: B) :
    A.take n <+: B.take n := by
  obtain ⟨tail, rfl⟩ := h
  rw [List.take_append_eq_append_take]
  exact List.prefix_append _ _

/-- C3 (amended): cancellation never raises an error in either
strategy.  In the indexed strategy, a cancellation observed by the end
of the index-refresh phase makes the call return silently with an empty
result list.  In the filesystem strategy, the walk stops early and the
call returns normally with the results accepted so far: a prefix, in
walk order, of the results an uncancelled run would return. -/
theorem cancellation_behaviour (reSearch : String → String → Bool) (flag : Nat → Bool)
    (setOrder : Finset FMPath → List FMPath) (statF : FMPath → Option StatInfo)
    (mt : FMPath → Option Nat) (eng : SearchEngine) (r : RootArg) (c : Criteria)
    (maxResults : Nat) (useIndex : Bool) (now t : Nat)
    (hm : FlagMono flag) (hex : r.pathExists = true) (hdir : r.isDir = true) :
    ((useIndex && eng.indexingEnabled && !strOptTruthy c.contentSearch) = true →
      (∃ tc ≤ (updateIndex flag mt eng.indexingEnabled eng.index (rootWalk r) t).2,
        flag tc = true) →
      (searchFiles reSearch flag setOrder statF mt eng r c maxResults useIndex now t).1 =
        .ok []) ∧
    ((useIndex && eng.indexingEnabled && !strOptTruthy c.contentSearch) = false →
      ∃ l, (searchFiles reSearch flag setOrder statF mt eng r c maxResults useIndex now t).1 =
          .ok l ∧
        l <+: okResults
          (searchFiles reSearch noFlag setOrder statF mt eng r c maxResults useIndex now t).1) := by
  constructor
  · rintro hcond ⟨tc, htc, htrue⟩
    have hflag : flag (updateIndex flag mt eng.indexingEnabled eng.index (rootWalk r) t).2 =
        true := hm tc _ htc htrue
    unfold searchFiles
    rw [hex, hdir]
    simp only [Bool.not_true, Bool.false_eq_true, if_false, hcond, if_true]
    unfold searchWithIndex
    dsimp only
    rw [hflag]
    rfl
  · intro hcond
    have hflagrun : (searchFiles reSearch flag setOrder statF mt eng r c maxResults useIndex
        now t).1 = .ok (fsOuter reSearch flag c eng.maxFileSizeForContentSearch maxResults
          (rootWalk r) [] t).1 := by
      unfold searchFiles
      rw [hex, hdir]
      simp only [Bool.not_true, Bool.false_eq_true, if_false, hcond]
      rfl
    have hnf2 : okResults (searchFiles reSearch noFlag setOrder statF mt eng r c maxResults
        useIndex now t).1 = (fsOuter reSearch noFlag c eng.maxFileSizeForContentSearch
          maxResults (rootWalk r) [] t).1 := by
      unfold searchFiles
      rw [hex, hdir]
      simp only [Bool.not_true, Bool.false_eq_true, if_false, hcond]
      rfl
    obtain ⟨fl, hfl, heq⟩ := fsOuter_flag_char reSearch flag c
      eng.maxFileSizeForContentSearch maxResults hm (rootWalk r) [] t (by simp)
    refine ⟨_, hflagrun, ?_⟩
    rw [hnf2, heq, fsOuter_noflag reSearch c eng.maxFileSizeForContentSearch maxResults
      (rootWalk r) [] t (by simp)]
    simp only [List.nil_append, List.length_nil, Nat.sub_zero]
    exact prefix_take _ (prefix_filterMap _ hfl)

theorem flagAt2_mono : FlagMono flagAt2 := by
  intro i j hij hi
  simp only [flagAt2, decide_eq_true_eq] at *
  omega

/-- Witness for C3 (amended) at concrete inputs: an indexed run with
the flag set returns `ok []`; a filesystem run cancelled mid-walk
returns `ok` of a prefix of the uncancelled results. -/
theorem cancellation_behaviour_witness :
    ((searchFiles noRe allFlag exSetOrder noStat noMt initEngine exRoot
        (defaultCriteria "*") 1000 true 7 0).1 = .ok []) ∧
    (∃ l, (searchFiles noRe flagAt2 exSetOrder noStat noMt initEngine exRoot2
        (defaultCriteria "*.txt") 1000 false 7 0).1 = .ok l ∧
      l <+: okResults (searchFiles noRe noFlag exSetOrder noStat noMt initEngine exRoot2
        (defaultCriteria "*.txt") 1000 false 7 0).1) :=
  ⟨(cancellation_behaviour noRe allFlag exSetOrder noStat noMt initEngine exRoot
      (defaultCriteria "*") 1000 true 7 0 (fun _ _ _ h => h) rfl rfl).1 (by decide)
      ⟨0, Nat.zero_le _, rfl⟩,
   (cancellation_behaviour noRe flagAt2 exSetOrder noStat noMt initEngine exRoot2
      (defaultCriteria "*.txt") 1000 false 7 0 flagAt2_mono rfl rfl).2 (by decide)⟩
